import Mathlib

/-!
Verification of the on-call scheduler (`src/app.py`) against its specification.

The Python source is shallowly embedded: Python dicts become association
lists (`List (String × α)`) with Python-dict lookup/insert semantics,
Python exceptions become an explicit `Except PyError` result, and Python's
unbounded non-negative integers from the data model become `Nat`.
Dates are ISO `YYYY-MM-DD` strings exactly as in the source; the proleptic
Gregorian calendar arithmetic of Python's `datetime.date` is implemented
directly (ordinals, weekdays, zero-padded formatting, valid for years
up to 9999 which is also `datetime`'s own range).
-/

namespace OnCall

/-- Python runtime errors that the embedded code can raise. -/
inductive PyError where
  | keyError : PyError
  | typeError : PyError
  | valueError : PyError
  | badRequest : PyError
deriving DecidableEq, Repr

/-! ## String ordering (Python's lexicographic comparison by code point) -/

/-- Lexicographic strict order on char lists, as Python compares strings. -/
def charListLt : List Char → List Char → Bool
  | _, [] => false
  | [], _ :: _ => true
  | a :: as, b :: bs => if a < b then true else if b < a then false else charListLt as bs

/-- Python's `<` on strings (code-point lexicographic). -/
def strLt (a b : String) : Bool := charListLt a.data b.data

/-- Insert into a `strLt`-sorted list (one step of Python's `sorted`). -/
def insertStr (a : String) : List String → List String
  | [] => [a]
  | b :: bs => if strLt a b then a :: b :: bs else b :: insertStr a bs

/-- `sorted(...)` on a list of strings (insertion sort; agrees with
Python's `sorted` on duplicate-free input, which is the only use site). -/
def sortStrings : List String → List String
  | [] => []
  | a :: as => insertStr a (sortStrings as)

/-! ## Association lists with Python-dict semantics -/

/-- Python `d[k]` / `d.get(k)`: first (unique, for real dicts) matching key. -/
def alookup {α : Type} : List (String × α) → String → Option α
  | [], _ => none
  | (k, v) :: rest, key => if key = k then some v else alookup rest key

/-- Python `d.get(k, default)`. -/
def alookupD {α : Type} (m : List (String × α)) (key : String) (dft : α) : α :=
  (alookup m key).getD dft

/-- Rewrite the value stored at `key` (an in-place overwrite of a dict entry). -/
def setAt {α : Type} (m : List (String × α)) (key : String) (v : α) :
    List (String × α) :=
  m.map (fun p => if p.1 = key then (p.1, v) else p)

/-- Python `d[k] = v` (overwrite in place, or append a new key). -/
def dictInsert {α : Type} (m : List (String × α)) (key : String) (v : α) :
    List (String × α) :=
  if (alookup m key).isSome then setAt m key v
  else m ++ [(key, v)]

/-! ## Calendar arithmetic (Python `datetime.date`, proleptic Gregorian) -/

/-- Gregorian leap-year test. -/
def isLeap (y : Nat) : Bool := (y % 4 == 0 && y % 100 != 0) || y % 400 == 0

/-- Length of month `m` (1-12) of year `y`, as `calendar`/`datetime` compute it. -/
def daysInMonth (y m : Nat) : Nat :=
  if m = 2 then (if isLeap y then 29 else 28)
  else if m = 4 ∨ m = 6 ∨ m = 9 ∨ m = 11 then 30
  else 31

/-- Days in all years strictly before year `y` (ordinal of Dec 31 of year `y-1`). -/
def daysBeforeYear (y : Nat) : Nat :=
  365 * (y - 1) + (y - 1) / 4 - (y - 1) / 100 + (y - 1) / 400

/-- Days in the months of year `y` strictly before month `m`. -/
def daysBeforeMonth (y m : Nat) : Nat :=
  ((List.range (m - 1)).map (fun k => daysInMonth y (k + 1))).sum

/-- Python `date(y, m, d).toordinal()`: day count with 0001-01-01 = 1. -/
def toOrdinal (y m d : Nat) : Nat := daysBeforeYear y + daysBeforeMonth y m + d

/-- Python `date.weekday()`: Monday = 0 … Sunday = 6. -/
def pyWeekday (y m d : Nat) : Nat := (toOrdinal y m d + 6) % 7

/-- Decimal digit as a character. -/
def digitChar (n : Nat) : Char :=
  match n with
  | 0 => '0' | 1 => '1' | 2 => '2' | 3 => '3' | 4 => '4'
  | 5 => '5' | 6 => '6' | 7 => '7' | 8 => '8' | _ => '9'

/-- Two-digit zero-padded field of `strftime` (`%m`, `%d`). -/
def pad2 (n : Nat) : String := String.mk [digitChar (n / 10 % 10), digitChar (n % 10)]

/-- Four-digit zero-padded year of `strftime` (`%Y`; years ≤ 9999). -/
def pad4 (n : Nat) : String :=
  String.mk [digitChar (n / 1000 % 10), digitChar (n / 100 % 10),
             digitChar (n / 10 % 10), digitChar (n % 10)]

/-- `d.strftime('%Y-%m-%d')`. -/
def fmtDate (y m d : Nat) : String := pad4 y ++ "-" ++ pad2 m ++ "-" ++ pad2 d

/-- A holiday as the JSON layer may deliver it: either a bare date string or
a `{date, note}` record (`Holiday.to_dict` always produces the latter). -/
inductive HolidayInput where
  | plain (s : String) : HolidayInput
  | record (date note : String) : HolidayInput
deriving DecidableEq, Repr

/-- Python `h['date']`: subscripting a string with `'date'` raises `TypeError`;
a record yields its date field. -/
def holidayDate : HolidayInput → Except PyError String
  | .plain _ => .error .typeError
  | .record d _ => .ok d

/-- The set comprehension `{h['date'] for h in holidays_list}` (as a list;
membership is all that is ever used of it). -/
def holidayDates : List HolidayInput → Except PyError (List String)
  | [] => .ok []
  | h :: rest =>
    match holidayDate h with
    | .error e => .error e
    | .ok d =>
      match holidayDates rest with
      | .error e => .error e
      | .ok ds => .ok (d :: ds)

/-- The day loop of `get_on_call_days_pure`: every calendar day of the month,
kept when it is a Saturday/Sunday (`weekday() >= 5`) or a listed holiday. -/
def collectOnCallDays (y m : Nat) (holidayDs : List String) : List String :=
  ((List.range (daysInMonth y m)).map (fun k => k + 1)).filterMap (fun d =>
    let ds := fmtDate y m d
    if pyWeekday y m d ≥ 5 ∨ ds ∈ holidayDs then some ds else none)

/-- `get_on_call_days_pure(year, month, holidays_list)` from `src/app.py`:
normalizes the holiday list via `h['date']`, walks the days of the month,
and returns `sorted(list(set(days)))`. -/
def get_on_call_days_pure (year month : Nat) (holidays_list : List HolidayInput) :
    Except PyError (List String) :=
  match holidayDates holidays_list with
  | .error e => .error e
  | .ok hds => .ok (sortStrings (collectOnCallDays year month hds).dedup)

/-! ## Assignment simulator (`run_schedule_simulation`, src/app.py lines 130-185) -/

/-- The dict shape produced by `Engineer.to_dict` and consumed by the simulator. -/
structure EngineerData where
  name : String
  team : String
  email : String
  maxShifts : Nat
  preferences : List (String × List String)
  consecutive_pref : String
deriving DecidableEq, Repr

/-- The dict shape produced by `Team.to_dict` and consumed by the simulator. -/
structure TeamData where
  name : String
  shifts_per_day : Nat
  baseGroups : List (List String)
  monthlyPriorities : List (String × List (List String))
  assignments : List (String × List String)
  shift_overrides : List (String × Nat)
deriving DecidableEq, Repr

/-- The `temp_engineer_prefs` payload of the what-if path. -/
structure TempPrefs where
  engineer : String
  preferences : List String
  maxShifts : Nat
deriving DecidableEq, Repr

/-- `{e['name']: e for e in engineers_data}`. -/
def buildEngMap (es : List EngineerData) : List (String × EngineerData) :=
  es.foldl (fun m e => dictInsert m e.name e) []

/-- Lines 136-140: overwrite the named engineer's preferences for the month
and their `maxShifts` in the working map (no-op when the engineer is absent). -/
def injectTemp (month_str : String) (m : List (String × EngineerData)) :
    Option TempPrefs → List (String × EngineerData)
  | none => m
  | some tp =>
    match alookup m tp.engineer with
    | none => m
    | some e =>
      setAt m tp.engineer
        { e with preferences := dictInsert e.preferences month_str tp.preferences,
                 maxShifts := tp.maxShifts }

/-- `l.append(l.pop(0))`: move the first element to the end. -/
def rot1 {α : Type} : List α → List α
  | [] => []
  | x :: xs => xs ++ [x]

/-- One rotation step (lines 103-106 / 151-154): the first group moves to the
end, and inside every group the first member moves to the end. -/
def rotStep (gs : List (List String)) : List (List String) :=
  match gs with
  | [] => []
  | _ => (rot1 gs).map rot1

/-- `sorted(keys_filtered, reverse=True)[0]`: maximum of a string list. -/
def strMax : List String → Option String :=
  fun l => l.foldl (fun acc s =>
    match acc with
    | none => some s
    | some t => if strLt t s then some s else some t) none

/-- The most recent previously computed month strictly before `month_str`
(lines 99-100 / 147-148), with its stored snapshot. -/
def pickLatest (mp : List (String × List (List String))) (month_str : String) :
    Option (List (List String)) :=
  match strMax ((mp.map Prod.fst).filter (fun k => strLt k month_str)) with
  | none => none
  | some k => alookup mp k

/-- Python `A or B` on two list values (`B` when `A` is empty). -/
def pyOrGroups (a b : List (List String)) : List (List String) :=
  if a.isEmpty then b else a

/-- Lines 146-157: the name groups ranking the team for the month — the stored
snapshot if one exists, otherwise one rotation of the filtered base. -/
def priorityNamesFor (month_str : String) (m : List (String × EngineerData))
    (t : TeamData) : List (List String) :=
  match alookup t.monthlyPriorities month_str with
  | some gs => gs
  | none =>
    let last := pickLatest t.monthlyPriorities month_str
    let srcGroups :=
      match last with
      | some l => pyOrGroups l t.baseGroups
      | none => t.baseGroups
    let base := srcGroups.map (fun g => g.filter (fun n =>
      match alookup m n with
      | some e => e.team == t.name
      | none => false))
    rotStep base

/-- Line 158: the flattened priority list of engineer records. -/
def monthlyPriorityList (month_str : String) (m : List (String × EngineerData))
    (t : TeamData) : List EngineerData :=
  ((priorityNamesFor month_str m t).flatten).filterMap (fun n => alookup m n)

/-- The mutable per-team state of the pass loop:
`shifts_assigned_count` and `team_assignments_this_month`. -/
structure TeamSimState where
  counts : List (String × Nat)
  asg : List (String × List String)
deriving DecidableEq, Repr

/-- `counts[name] += 1`. -/
def mapIncr (m : List (String × Nat)) (key : String) : List (String × Nat) :=
  m.map (fun p => if p.1 = key then (p.1, p.2 + 1) else p)

/-- Effective capacity of a day: `shift_overrides.get(day, shifts_per_day)`. -/
def effCap (t : TeamData) (day : String) : Nat :=
  alookupD t.shift_overrides day t.shifts_per_day

/-- `{day: i for i, day in enumerate(on_call_days)}` (days are distinct). -/
def idxMap : Nat → List String → List (String × Nat)
  | _, [] => []
  | i, d :: rest => (d, i) :: idxMap (i + 1) rest

/-- Lines 169-182: scan one engineer's preferred days, assigning the first
acceptable one.  Note that line 172 subscripts
`team_assignments_this_month[preferred_day]` unconditionally, so a preferred
day that is not an on-call day raises `KeyError`. -/
def attemptDays (t : TeamData) (ocd : List String) (e : EngineerData) :
    List String → TeamSimState → Except PyError TeamSimState
  | [], st => .ok st
  | d :: rest, st =>
    match alookup st.asg d with
    | none => .error .keyError
    | some l =>
      if decide (l.length < alookupD t.shift_overrides d t.shifts_per_day) &&
          !(l.contains e.name) then
        if e.consecutive_pref == "avoid" then
          match alookup (idxMap 0 ocd) d with
          | none => .error .typeError
          | some i =>
            if (decide (0 < i) &&
                  ((alookup st.asg (ocd.getD (i - 1) "")).getD []).contains e.name) ||
               (decide (i < ocd.length - 1) &&
                  ((alookup st.asg (ocd.getD (i + 1) "")).getD []).contains e.name) then
              attemptDays t ocd e rest st
            else .ok ⟨mapIncr st.counts e.name, setAt st.asg d (l ++ [e.name])⟩
        else .ok ⟨mapIncr st.counts e.name, setAt st.asg d (l ++ [e.name])⟩
      else attemptDays t ocd e rest st

/-- Lines 165-182: one engineer's turn in a pass (the count read on line 166
raises `KeyError` when the engineer has no entry in the per-team counter). -/
def engineerStep (month_str : String) (t : TeamData) (ocd : List String)
    (e : EngineerData) (st : TeamSimState) : Except PyError TeamSimState :=
  match alookup st.counts e.name with
  | .none => .error .keyError
  | .some c =>
    if c < e.maxShifts then
      if (alookupD e.preferences month_str []).isEmpty then .ok st
      else attemptDays t ocd e (alookupD e.preferences month_str []) st
    else .ok st

/-- One pass over the priority list. -/
def passFold (month_str : String) (t : TeamData) (ocd : List String) :
    List EngineerData → TeamSimState → Except PyError TeamSimState
  | [], st => .ok st
  | e :: rest, st =>
    match engineerStep month_str t ocd e st with
    | .error er => .error er
    | .ok st' => passFold month_str t ocd rest st'

/-- `for _ in range(max_shifts_requested)`: iterate the pass. -/
def runPasses (month_str : String) (t : TeamData) (ocd : List String)
    (plist : List EngineerData) : Nat → TeamSimState → Except PyError TeamSimState
  | 0, st => .ok st
  | n + 1, st =>
    match passFold month_str t ocd plist st with
    | .error er => .error er
    | .ok st' => runPasses month_str t ocd plist n st'

/-- Lines 141-182 for one `team_dict`: `none` models the `continue` taken
when the team has no engineers. -/
def processTeam (month_str : String) (ocd : List String)
    (m : List (String × EngineerData)) (t : TeamData) :
    Except PyError (Option (List (String × List String))) :=
  if ((m.map Prod.snd).filter (fun e => e.team == t.name)).isEmpty then .ok none
  else
    match runPasses month_str t ocd (monthlyPriorityList month_str m t)
        ((((m.map Prod.snd).filter (fun e => e.team == t.name)).map
          (fun e => e.maxShifts)).foldl Nat.max 0)
        ⟨((m.map Prod.snd).filter (fun e => e.team == t.name)).map
            (fun e => (e.name, 0)),
          ocd.map (fun d => (d, ([] : List String)))⟩ with
    | .error er => .error er
    | .ok st => .ok (some st.asg)

/-- `final_assignments.setdefault(day, []).extend(names)`. -/
def setdefaultExtend (fin : List (String × List String)) (day : String)
    (names : List String) : List (String × List String) :=
  match alookup fin day with
  | some l => setAt fin day (l ++ names)
  | none => fin ++ [(day, names)]

/-- Lines 183-184: merge a team's month into the final map. -/
def mergeAsg (fin asgT : List (String × List String)) : List (String × List String) :=
  asgT.foldl (fun f p => setdefaultExtend f p.1 p.2) fin

/-- The `for team_dict in teams_data` loop threading the final map. -/
def mergeTeams (month_str : String) (ocd : List String)
    (m : List (String × EngineerData)) :
    List TeamData → List (String × List String) →
    Except PyError (List (String × List String))
  | [], fin => .ok fin
  | t :: ts, fin =>
    match processTeam month_str ocd m t with
    | .error er => .error er
    | .ok none => mergeTeams month_str ocd m ts fin
    | .ok (some asgT) => mergeTeams month_str ocd m ts (mergeAsg fin asgT)

/-- Decimal digit test. -/
def isDigitCh (c : Char) : Bool := decide ('0' ≤ c) && decide (c ≤ '9')

/-- Value of a digit string. -/
def digitsVal (cs : List Char) : Nat := cs.foldl (fun a c => a * 10 + (c.toNat - 48)) 0

/-- Python `int(s)` restricted to plain digit strings (the only inputs the
app produces for month components). -/
def parseNat (cs : List Char) : Option Nat :=
  if cs ≠ [] ∧ cs.all isDigitCh then some (digitsVal cs) else none

/-- `s.split('-')` on the character list. -/
def splitDashAux : List Char → List Char → List (List Char)
  | [], acc => [acc.reverse]
  | c :: rest, acc =>
    if c = '-' then acc.reverse :: splitDashAux rest []
    else splitDashAux rest (c :: acc)

/-- `year, month = map(int, month_str.split('-'))`; `none` models the
`ValueError`/unpacking error on malformed months. -/
def parseMonth (s : String) : Option (Nat × Nat) :=
  match splitDashAux s.data [] with
  | [a, b] =>
    match parseNat a, parseNat b with
    | some y, some mo => some (y, mo)
    | _, _ => none
  | _ => none

/-- `run_schedule_simulation(month_str, teams_data, engineers_data,
holidays_data, temp_engineer_prefs)` from `src/app.py`. -/
def run_schedule_simulation (month_str : String) (teams_data : List TeamData)
    (engineers_data : List EngineerData) (holidays_data : List HolidayInput)
    (temp_engineer_prefs : Option TempPrefs) :
    Except PyError (List (String × List String)) :=
  match parseMonth month_str with
  | none => .error .valueError
  | some (year, month) =>
    match get_on_call_days_pure year month holidays_data with
    | .error e => .error e
    | .ok ocd =>
      let m := injectTemp month_str (buildEngMap engineers_data) temp_engineer_prefs
      let final0 := ocd.map (fun d => (d, ([] : List String)))
      mergeTeams month_str ocd m teams_data final0

/-! ## Persisted records and the priority rotation store (src/app.py 41-73, 96-110) -/

/-- The `Engineer` database row. -/
structure EngineerRec where
  name : String
  email : String
  maxShifts : Nat
  consecutive_pref : String
  preferences : List (String × List String)
  team_id : Nat
deriving DecidableEq, Repr

/-- The `Team` database row. -/
structure TeamRec where
  id : Nat
  name : String
  baseGroups : List (List String)
  monthlyPriorities : List (String × List (List String))
  assignments : List (String × List String)
  shifts_per_day : Nat
  shift_overrides : List (String × Nat)
deriving DecidableEq, Repr

/-- The `Holiday` database row. -/
structure HolidayRec where
  date : String
  note : String
deriving DecidableEq, Repr

/-- The persisted database state the endpoints read and commit. -/
structure Db where
  teams : List TeamRec
  engineers : List EngineerRec
  holidays : List HolidayRec
deriving DecidableEq, Repr

/-- `Team.to_dict`. -/
def TeamRec.to_dict (t : TeamRec) : TeamData :=
  ⟨t.name, t.shifts_per_day, t.baseGroups, t.monthlyPriorities, t.assignments,
   t.shift_overrides⟩

/-- Resolve `self.team.name` through the foreign key. -/
def teamNameOf (db : Db) (tid : Nat) : String :=
  ((db.teams.find? (fun t => t.id == tid)).map (fun t => t.name)).getD ""

/-- `Engineer.to_dict`. -/
def EngineerRec.to_dict (db : Db) (e : EngineerRec) : EngineerData :=
  ⟨e.name, teamNameOf db e.team_id, e.email, e.maxShifts, e.preferences,
   e.consecutive_pref⟩

/-- `Holiday.to_dict`. -/
def HolidayRec.to_dict (h : HolidayRec) : HolidayInput := .record h.date h.note

/-- `(last_month_order or team.baseGroups or [[]])` (line 101). -/
def orBase (last : Option (List (List String))) (bg : List (List String)) :
    List (List String) :=
  match last with
  | some l => if l.isEmpty then (if bg.isEmpty then [[]] else bg) else l
  | none => if bg.isEmpty then [[]] else bg

/-- Drop identifiers that are not engineers of this team (line 101). -/
def filterTeamRec (m : List (String × EngineerRec)) (tid : Nat)
    (gs : List (List String)) : List (List String) :=
  gs.map (fun g => g.filter (fun n =>
    match alookup m n with
    | some e => e.team_id == tid
    | none => false))

/-- `[[map[name] for name in group if name in map] for group in groups]` (line 110). -/
def groupsToEngs (m : List (String × EngineerRec)) (gs : List (List String)) :
    List (List EngineerRec) :=
  gs.map (fun g => g.filterMap (fun n => alookup m n))

/-- `_calculate_monthly_priorities_and_save(team, all_engineers_map, month_str)`
(lines 96-110).  Returns the team row after the call, whether a snapshot
write (`db.session.commit()`) happened, and the returned engineer groups. -/
def _calculate_monthly_priorities_and_save (t : TeamRec)
    (m : List (String × EngineerRec)) (month_str : String) :
    TeamRec × Bool × List (List EngineerRec) :=
  match alookup t.monthlyPriorities month_str with
  | some final => (t, false, groupsToEngs m final)
  | none =>
    let last := pickLatest t.monthlyPriorities month_str
    let base := filterTeamRec m t.id (orBase last t.baseGroups)
    let rotated := rotStep base
    let mp' := dictInsert t.monthlyPriorities month_str rotated
    let t' := { t with monthlyPriorities := mp' }
    (t', true, groupsToEngs m (alookupD t'.monthlyPriorities month_str []))

/-- Resolving a sequence of months in order, keeping the evolving team row. -/
def resolveChain (t : TeamRec) (m : List (String × EngineerRec))
    (ms : List String) : TeamRec :=
  ms.foldl (fun acc mo => (_calculate_monthly_priorities_and_save acc m mo).1) t

/-! ## The what-if endpoint (`analyze_chances`, src/app.py 231-243) -/

/-- The JSON payload of `POST /api/analyze-chances` (missing `month`/`engineer`
modelled as the empty string, which Python's `all(...)` also rejects;
`preferences`/`maxShifts` carry the handler's `.get` defaults). -/
structure AnalyzePayload where
  month : String
  engineer : String
  preferences : List String
  maxShifts : Nat
deriving DecidableEq, Repr

/-- `analyze_chances` as a transformer of the persisted state: the returned
`Db` is the database after the request (the handler contains no
`db.session.commit()`, and `api_error_handler` turns exceptions into a 500
response, also without committing), paired with the HTTP-level result. -/
def analyze_chances (db : Db) (p : AnalyzePayload) :
    Db × Except PyError (List String) :=
  if p.month = "" ∨ p.engineer = "" then (db, .error .badRequest)
  else
    match run_schedule_simulation p.month (db.teams.map TeamRec.to_dict)
        (db.engineers.map (EngineerRec.to_dict db))
        (db.holidays.map HolidayRec.to_dict)
        (some ⟨p.engineer, p.preferences, p.maxShifts⟩) with
    | .error er => (db, .error er)
    | .ok sim =>
      (db, .ok (sortStrings ((sim.filter (fun q => q.2.contains p.engineer)).map
        Prod.fst)))

/-! ## Observables used by the statements and proofs -/

/-- The list assigned to a day (`[]` when the day is absent). -/
def dayList (asg : List (String × List String)) (d : String) : List String :=
  (alookup asg d).getD []

/-- How many on-call days currently contain engineer `n`. -/
def occD (ocd : List String) (asg : List (String × List String)) (n : String) : Nat :=
  (ocd.filter (fun d => (dayList asg d).contains n)).length

/-- The cap in force for a name in the working engineer map (0 if absent —
an absent engineer cannot be assigned at all). -/
def maxOf (m : List (String × EngineerData)) (n : String) : Nat :=
  match alookup m n with
  | some e => e.maxShifts
  | none => 0

/-- The team recorded for a name in the working engineer map. -/
def teamOf (m : List (String × EngineerData)) (n : String) : Option String :=
  (alookup m n).map (fun e => e.team)

/-- The name's record carries the `avoid` consecutive-days flag. -/
def isAvoid (m : List (String × EngineerData)) (n : String) : Prop :=
  ∃ e, alookup m n = some e ∧ e.consecutive_pref = "avoid"

/-- `n` is never on two adjacent on-call days of `ocd`. -/
def adjFree (ocd : List String) (asg : List (String × List String)) (n : String) :
    Prop :=
  ∀ i d d', ocd.get? i = some d → ocd.get? (i + 1) = some d' →
    ¬(n ∈ dayList asg d ∧ n ∈ dayList asg d')

/-- Every entry of the map carries a record whose `name` field is its key. -/
def MapNamesOk (m : List (String × EngineerData)) : Prop :=
  ∀ p ∈ m, p.2.name = p.1

/-- The map's keys are pairwise distinct (Python dicts guarantee this). -/
def KeysNodup {α : Type} (m : List (String × α)) : Prop :=
  (m.map Prod.fst).Nodup

/-- The invariant maintained by the per-team pass loop. -/
structure InvT (t : TeamData) (m : List (String × EngineerData)) (ocd : List String)
    (st : TeamSimState) : Prop where
  keys : st.asg.map Prod.fst = ocd
  nodupDays : ∀ p ∈ st.asg, p.2.Nodup
  cap : ∀ p ∈ st.asg, p.2.length ≤ effCap t p.1
  countsTeam : ∀ n, (alookup st.counts n).isSome = true →
    ∃ e, alookup m n = some e ∧ e.team = t.name
  countsVal : ∀ n c, alookup st.counts n = some c →
    c = occD ocd st.asg n ∧ c ≤ maxOf m n
  countsNone : ∀ n, alookup st.counts n = none → occD ocd st.asg n = 0
  adj : ∀ n, isAvoid m n → adjFree ocd st.asg n

/-- The invariant carried along the team-merging fold: `done` are the teams
already folded into `fin`. -/
structure FinInv (m : List (String × EngineerData)) (ocd : List String)
    (done : List TeamData) (fin : List (String × List String)) : Prop where
  keys : fin.map Prod.fst = ocd
  nodupDays : ∀ p ∈ fin, p.2.Nodup
  members : ∀ p ∈ fin, ∀ n ∈ p.2,
    ∃ e, alookup m n = some e ∧ e.team ∈ done.map TeamData.name
  occBound : ∀ n, occD ocd fin n ≤ maxOf m n
  adj : ∀ n, isAvoid m n → adjFree ocd fin n
  teamFilter : ∀ t' ∈ done, ∀ p ∈ fin,
    (p.2.filter (fun n => decide (teamOf m n = some t'.name))).length ≤ effCap t' p.1

/-- The effective working engineer map of a simulation run. -/
def simEngMap (month_str : String) (engineers_data : List EngineerData)
    (temp : Option TempPrefs) : List (String × EngineerData) :=
  injectTemp month_str (buildEngMap engineers_data) temp

/-- The team of the claim C6 failing input. -/
def c6team : TeamData :=
  { name := "CORE", shifts_per_day := 1, baseGroups := [["EngC"]],
    monthlyPriorities := [], assignments := [], shift_overrides := [] }

/-- The engineer of the claim C6 failing input: their only preference,
`2025-10-06`, is a Monday and therefore not an on-call day. -/
def c6eng : EngineerData :=
  { name := "EngC", team := "CORE", email := "c@c.com", maxShifts := 1,
    preferences := [("2025-10", ["2025-10-06"])], consecutive_pref := "neutral" }

/-- The rotated snapshot computed on a cache miss. -/
def missRotated (t : TeamRec) (m : List (String × EngineerRec))
    (month_str : String) : List (List String) :=
  rotStep (filterTeamRec m t.id
    (orBase (pickLatest t.monthlyPriorities month_str) t.baseGroups))

/-- The team of the claim C4 counterexample. -/
def c4team : TeamData :=
  { name := "CORE", shifts_per_day := 1, baseGroups := [["Z"]],
    monthlyPriorities := [], assignments := [], shift_overrides := [] }

/-- The engineer of the claim C4 counterexample: flag literally
`avoid-adjacent`, two adjacent on-call days preferred. -/
def c4eng : EngineerData :=
  { name := "Z", team := "CORE", email := "z@z.com", maxShifts := 2,
    preferences := [("2025-10", ["2025-10-04", "2025-10-05"])],
    consecutive_pref := "avoid-adjacent" }

/-- The team of the claim C9 counterexample (priority snapshot already stored
for the month: `C` is ranked first, then `A`, then `B`). -/
def c9team : TeamData :=
  { name := "T", shifts_per_day := 1, baseGroups := [],
    monthlyPriorities := [("2025-10", [["C", "A", "B"]])], assignments := [],
    shift_overrides := [] }

/-- Claim C9 counterexample engineer `A`. -/
def c9engA : EngineerData :=
  { name := "A", team := "T", email := "a@t.com", maxShifts := 1,
    preferences := [("2025-10", ["2025-10-04"])], consecutive_pref := "neutral" }

/-- Claim C9 counterexample engineer `B`. -/
def c9engB : EngineerData :=
  { name := "B", team := "T", email := "b@t.com", maxShifts := 1,
    preferences := [("2025-10", ["2025-10-04"])], consecutive_pref := "neutral" }

/-- Claim C9 counterexample engineer `C`: cap 2, so not one of the claim's
"exactly two engineers with maxShifts 1 and a single preferred day". -/
def c9engC : EngineerData :=
  { name := "C", team := "T", email := "c@t.com", maxShifts := 2,
    preferences := [("2025-10", ["2025-10-04", "2025-10-05"])],
    consecutive_pref := "neutral" }

/-- Concrete team for the simulator witnesses. -/
def wteam : TeamData :=
  { name := "CORE", shifts_per_day := 1, baseGroups := [["EngA", "EngB"]],
    monthlyPriorities := [], assignments := [], shift_overrides := [] }

/-- Concrete engineer for the simulator witnesses. -/
def wengA : EngineerData :=
  { name := "EngA", team := "CORE", email := "a@a.com", maxShifts := 1,
    preferences := [("2025-10", ["2025-10-04"])], consecutive_pref := "neutral" }

/-- Concrete engineer for the simulator witnesses. -/
def wengB : EngineerData :=
  { name := "EngB", team := "CORE", email := "b@b.com", maxShifts := 1,
    preferences := [("2025-10", ["2025-10-11"])], consecutive_pref := "neutral" }

/-- The final map computed for the witness scenario. -/
def wfinal : List (String × List String) :=
  [("2025-10-04", ["EngA"]), ("2025-10-05", []), ("2025-10-11", ["EngB"]),
   ("2025-10-12", []), ("2025-10-18", []), ("2025-10-19", []),
   ("2025-10-25", []), ("2025-10-26", [])]

/-- Concrete team for the capacity witness. -/
def wteamC3 : TeamData :=
  { name := "CORE", shifts_per_day := 1, baseGroups := [["EngA", "EngB"]],
    monthlyPriorities := [], assignments := [],
    shift_overrides := [("2025-10-04", 2)] }

/-- The final map computed for the capacity witness scenario. -/
def wfinalC3 : List (String × List String) :=
  [("2025-10-04", ["EngA"]), ("2025-10-05", []), ("2025-10-11", ["EngB"]),
   ("2025-10-12", []), ("2025-10-18", []), ("2025-10-19", []),
   ("2025-10-25", []), ("2025-10-26", [])]

/-- Concrete team for the duplicate-free witness. -/
def wteamC10 : TeamData :=
  { name := "CORE", shifts_per_day := 2, baseGroups := [["EngA", "EngB"]],
    monthlyPriorities := [], assignments := [], shift_overrides := [] }

/-- Concrete engineer for the duplicate-free witness. -/
def wengC10 : EngineerData :=
  { name := "EngB", team := "CORE", email := "b@b.com", maxShifts := 2,
    preferences := [("2025-10", ["2025-10-04", "2025-10-04"])],
    consecutive_pref := "neutral" }

/-- The final map computed for the duplicate-free witness scenario. -/
def wfinalC10 : List (String × List String) :=
  [("2025-10-04", ["EngB", "EngA"]), ("2025-10-05", []), ("2025-10-11", []),
   ("2025-10-12", []), ("2025-10-18", []), ("2025-10-19", []),
   ("2025-10-25", []), ("2025-10-26", [])]

/-- Concrete team for the avoid-adjacency witness. -/
def wteamZ : TeamData :=
  { name := "CORE", shifts_per_day := 1, baseGroups := [["Z"]],
    monthlyPriorities := [], assignments := [], shift_overrides := [] }

/-- Concrete `avoid` engineer for the avoid-adjacency witness. -/
def wengZ : EngineerData :=
  { name := "Z", team := "CORE", email := "z@z.com", maxShifts := 2,
    preferences := [("2025-10", ["2025-10-04", "2025-10-05"])],
    consecutive_pref := "avoid" }

/-- The final map computed for the avoid-adjacency witness scenario. -/
def wfinalZ : List (String × List String) :=
  [("2025-10-04", ["Z"]), ("2025-10-05", []), ("2025-10-11", []),
   ("2025-10-12", []), ("2025-10-18", []), ("2025-10-19", []),
   ("2025-10-25", []), ("2025-10-26", [])]

/-- Every identifier in `gs` is an engineer of team `tid` in the map. -/
def GroupsOk (m : List (String × EngineerRec)) (tid : Nat)
    (gs : List (List String)) : Prop :=
  ∀ g ∈ gs, ∀ n ∈ g,
    (match alookup m n with
     | some e => e.team_id == tid
     | none => false) = true

/-- The condition carried along the month chain: either nothing is stored yet,
or the last stored snapshot is the `c`-fold rotation of the base. -/
def ChainState (bg : List (List String)) (t : TeamRec) (c : Nat) : Prop :=
  (t.monthlyPriorities = [] ∧ c = 0) ∨
  (∃ mpInit lk, t.monthlyPriorities = mpInit ++ [(lk, rotStep^[c] bg)]
    ∧ (∀ y ∈ mpInit.map Prod.fst, strLt y lk = true))

/-- Engineer rows for the rotation-chain witness. -/
def c8eng (n : String) : EngineerRec :=
  { name := n, email := n, maxShifts := 2, consecutive_pref := "neutral",
    preferences := [], team_id := 1 }

/-- Team row for the rotation-chain witness. -/
def c8team : TeamRec :=
  { id := 1, name := "T", baseGroups := [["a", "b", "c"], ["x", "y"]],
    monthlyPriorities := [], assignments := [], shifts_per_day := 1,
    shift_overrides := [] }

/-- Engineer map for the rotation-chain witness. -/
def c8map : List (String × EngineerRec) :=
  [("a", c8eng "a"), ("b", c8eng "b"), ("c", c8eng "c"),
   ("x", c8eng "x"), ("y", c8eng "y")]

/-! ### Claim C9: two-way contention for a single slot -/

/-- The pre-contention phase: the contested day is still empty and neither
contender has been counted a shift. -/
def Pre (d e1 e2 : String) (st : TeamSimState) : Prop :=
  (∀ l, alookup st.asg d = some l → l = []) ∧
  alookup st.counts e1 = some 0 ∧ alookup st.counts e2 = some 0

/-- The post-contention phase: the contested day holds exactly the winner, who
has one counted shift, while the loser still has none. -/
def Won (d e1 e2 : String) (st : TeamSimState) : Prop :=
  alookup st.asg d = some [e1] ∧
  alookup st.counts e1 = some 1 ∧ alookup st.counts e2 = some 0

/-- Team for the contention witness: the stored priority snapshot ranks `EngB`
ahead of `EngA`. -/
def wteamC9 : TeamData :=
  { name := "CORE", shifts_per_day := 1, baseGroups := [],
    monthlyPriorities := [("2025-10", [["EngB", "EngA"]])], assignments := [],
    shift_overrides := [] }

/-- Second contender for the contention witness: same single preferred day as
`wengA`. -/
def wengBC9 : EngineerData :=
  { name := "EngB", team := "CORE", email := "b@b.com", maxShifts := 1,
    preferences := [("2025-10", ["2025-10-04"])], consecutive_pref := "neutral" }

/-- The final map computed for the contention witness scenario. -/
def wfinalC9 : List (String × List String) :=
  [("2025-10-04", ["EngB"]), ("2025-10-05", []), ("2025-10-11", []),
   ("2025-10-12", []), ("2025-10-18", []), ("2025-10-19", []),
   ("2025-10-25", []), ("2025-10-26", [])]

/-! ## Theorems -/

theorem charListLt_irrefl : ∀ l : List Char, charListLt l l = false := by
  intro l
  induction l with
  | nil => rfl
  | cons a as ih => simp [charListLt, ih]

theorem strLt_irrefl (s : String) : strLt s s = false := charListLt_irrefl s.data

theorem charListLt_trans : ∀ a b c : List Char,
    charListLt a b = true → charListLt b c = true → charListLt a c = true := by
  intro a
  induction a with
  | nil =>
    intro b c hab hbc
    cases b with
    | nil => exact absurd hab (by simp [charListLt])
    | cons y ys =>
      cases c with
      | nil => exact absurd hbc (by simp [charListLt])
      | cons z zs => simp [charListLt]
  | cons x xs ih =>
    intro b c hab hbc
    cases b with
    | nil => exact absurd hab (by simp [charListLt])
    | cons y ys =>
      cases c with
      | nil => exact absurd hbc (by simp [charListLt])
      | cons z zs =>
        simp only [charListLt] at hab hbc ⊢
        rcases lt_trichotomy x y with hxy | hxy | hxy
        · rcases lt_trichotomy y z with hyz | hyz | hyz
          · have hxz : x < z := lt_trans hxy hyz
            simp [hxz]
          · subst hyz
            simp [hxy]
          · rw [if_neg (asymm hyz), if_pos hyz] at hbc
            exact absurd hbc (by simp)
        · subst hxy
          rw [if_neg (lt_irrefl x), if_neg (lt_irrefl x)] at hab
          rcases lt_trichotomy x z with hxz | hxz | hxz
          · simp [hxz]
          · subst hxz
            rw [if_neg (lt_irrefl x), if_neg (lt_irrefl x)] at hbc ⊢
            exact ih ys zs hab hbc
          · rw [if_neg (asymm hxz), if_pos hxz] at hbc
            exact absurd hbc (by simp)
        · rw [if_neg (asymm hxy), if_pos hxy] at hab
          exact absurd hab (by simp)

theorem strLt_trans {a b c : String} (h1 : strLt a b = true) (h2 : strLt b c = true) :
    strLt a c = true := charListLt_trans a.data b.data c.data h1 h2

theorem strLt_ne {a b : String} (h : strLt a b = true) : a ≠ b := by
  intro he
  subst he
  rw [strLt_irrefl] at h
  exact Bool.noConfusion h

theorem insertStr_perm (a : String) : ∀ l : List String, (insertStr a l).Perm (a :: l) := by
  intro l
  induction l with
  | nil => exact List.Perm.refl _
  | cons b bs ih =>
    simp only [insertStr]
    by_cases h : strLt a b = true
    · simp [h]
    · simp only [h, if_false]
      exact (List.Perm.cons b ih).trans (List.Perm.swap a b bs)

theorem sortStrings_perm : ∀ l : List String, (sortStrings l).Perm l := by
  intro l
  induction l with
  | nil => exact List.Perm.refl _
  | cons a as ih =>
    exact (insertStr_perm a (sortStrings as)).trans (List.Perm.cons a ih)

theorem sortStrings_nodup {l : List String} (h : l.Nodup) : (sortStrings l).Nodup :=
  (sortStrings_perm l).symm.nodup h

theorem alookup_setAt_self {α : Type} {m : List (String × α)} {key : String} {old : α}
    (h : alookup m key = some old) (v : α) : alookup (setAt m key v) key = some v := by
  induction m with
  | nil => simp [alookup] at h
  | cons p rest ih =>
    simp only [setAt, List.map_cons]
    by_cases hp : p.1 = key
    · rw [if_pos hp]
      simp [alookup, hp]
    · rw [if_neg hp]
      simp only [alookup] at h ⊢
      rw [if_neg (fun he => hp he.symm)] at h ⊢
      exact ih h

theorem alookup_setAt_ne {α : Type} (m : List (String × α)) {key k' : String}
    (h : k' ≠ key) (v : α) : alookup (setAt m key v) k' = alookup m k' := by
  induction m with
  | nil => rfl
  | cons p rest ih =>
    simp only [setAt, List.map_cons]
    by_cases hp : p.1 = key
    · rw [if_pos hp]
      simp only [alookup]
      rw [if_neg (hp ▸ h), if_neg (fun he => h (he.trans hp))]
      exact ih
    · rw [if_neg hp]
      simp only [alookup]
      by_cases hk : k' = p.1
      · simp [hk]
      · simp only [hk, if_false]
        exact ih

theorem setAt_map_fst {α : Type} (m : List (String × α)) (key : String) (v : α) :
    (setAt m key v).map Prod.fst = m.map Prod.fst := by
  induction m with
  | nil => rfl
  | cons p rest ih =>
    simp only [setAt, List.map_cons] at ih ⊢
    by_cases hp : p.1 = key
    · simp [hp, ih]
    · simp [hp, ih]

theorem alookup_append_right {α : Type} {m : List (String × α)} {key : String}
    (h : alookup m key = none) (m' : List (String × α)) :
    alookup (m ++ m') key = alookup m' key := by
  induction m with
  | nil => rfl
  | cons p rest ih =>
    simp only [alookup] at h ⊢
    by_cases hk : key = p.1
    · simp [hk] at h
    · simp only [List.cons_append, alookup, hk, if_false] at *
      exact ih h

theorem alookup_none_of_not_mem_keys {α : Type} {m : List (String × α)} {key : String}
    (h : ∀ p ∈ m, p.1 ≠ key) : alookup m key = none := by
  induction m with
  | nil => rfl
  | cons p rest ih =>
    simp only [alookup]
    rw [if_neg (fun he => h p (List.mem_cons_self p rest) he.symm)]
    exact ih (fun q hq => h q (List.mem_cons_of_mem p hq))

theorem alookup_mem {α : Type} : ∀ {m : List (String × α)} {key : String} {v : α},
    alookup m key = some v → (key, v) ∈ m := by
  intro m
  induction m with
  | nil => intro key v h; simp [alookup] at h
  | cons p rest ih =>
    intro key v h
    simp only [alookup] at h
    by_cases hk : key = p.1
    · rw [if_pos hk] at h
      have hv : v = p.2 := (Option.some_inj.mp h).symm
      have : (key, v) = p := by
        cases p
        simp only at hk hv
        simp [hk, hv]
      rw [this]
      exact List.mem_cons_self p rest
    · rw [if_neg hk] at h
      exact List.mem_cons_of_mem p (ih h)

theorem alookup_isSome_of_fst_mem {α : Type} {m : List (String × α)} {key : String}
    (h : key ∈ m.map Prod.fst) : (alookup m key).isSome := by
  induction m with
  | nil => simp at h
  | cons p rest ih =>
    simp only [List.map_cons, List.mem_cons] at h
    simp only [alookup]
    by_cases hk : key = p.1
    · simp [hk]
    · rw [if_neg hk]
      exact ih (h.resolve_left hk)

theorem get_on_call_days_nodup {y m : Nat} {hs : List HolidayInput} {ocd : List String}
    (h : get_on_call_days_pure y m hs = .ok ocd) : ocd.Nodup := by
  unfold get_on_call_days_pure at h
  cases hh : holidayDates hs with
  | error e => rw [hh] at h; exact absurd h (by simp)
  | ok hds =>
    rw [hh] at h
    simp only [Except.ok.injEq] at h
    rw [← h]
    exact sortStrings_nodup (List.nodup_dedup _)

/-! ## Theorems -/

theorem holidayDates_records (l : List (String × String)) :
    holidayDates (l.map (fun p => HolidayInput.record p.1 p.2)) = .ok (l.map Prod.fst) := by
  induction l with
  | nil => rfl
  | cons p rest ih =>
    simp only [List.map_cons, holidayDates, holidayDate, ih]

theorem holidayDates_plain_mem {hs : List HolidayInput} {s : String}
    (h : HolidayInput.plain s ∈ hs) : holidayDates hs = .error .typeError := by
  induction hs with
  | nil => simp at h
  | cons h0 rest ih =>
    cases h0 with
    | plain u => rfl
    | record d n =>
      have hr : HolidayInput.plain s ∈ rest := by
        rcases List.mem_cons.mp h with he | hr
        · exact absurd he (by simp)
        · exact hr
      simp only [holidayDates, holidayDate, ih hr]

/-- Claim C1: the what-if analysis (`analyze_chances`, which runs
`run_schedule_simulation` with `temp_engineer_prefs`) leaves every piece of
persisted state unchanged — team assignments, monthly priority snapshots, and
every engineer's stored preferences, `maxShifts` and `consecutive_pref` are
identical before and after the call (the handler performs no
`db.session.commit()`, on the success path or the error path). -/
theorem analyze_chances_frame (db : Db) (p : AnalyzePayload) :
    (analyze_chances db p).1.teams.map (fun t => t.assignments)
        = db.teams.map (fun t => t.assignments)
  ∧ (analyze_chances db p).1.teams.map (fun t => t.monthlyPriorities)
        = db.teams.map (fun t => t.monthlyPriorities)
  ∧ (analyze_chances db p).1.engineers.map
        (fun e => (e.preferences, e.maxShifts, e.consecutive_pref))
        = db.engineers.map
        (fun e => (e.preferences, e.maxShifts, e.consecutive_pref)) := by
  have h : (analyze_chances db p).1 = db := by
    unfold analyze_chances
    split
    · rfl
    · split <;> rfl
  rw [h]
  exact ⟨rfl, rfl, rfl⟩

/-- Claim C5, counterexample: the Calendar Resolver does not accept a bare
date string — `h['date']` on a string raises `TypeError` — whereas the same
date supplied as a `{date, note}` record succeeds, so bare-string and record
inputs are not interchangeable as the claim states. -/
theorem calendar_bare_string_cex :
    get_on_call_days_pure 2025 10 [HolidayInput.plain "2025-10-20"]
        = .error .typeError
  ∧ get_on_call_days_pure 2025 10 [HolidayInput.record "2025-10-20" "note"]
        = .ok ["2025-10-04", "2025-10-05", "2025-10-11", "2025-10-12",
               "2025-10-18", "2025-10-19", "2025-10-20", "2025-10-25",
               "2025-10-26"] :=
  ⟨rfl, rfl⟩

/-- Claim C5 (amended): the Calendar Resolver requires every holiday to be a
record carrying a `date` field; for record inputs the result depends only on
the underlying dates (metadata notes are irrelevant), while any bare date
string in the holiday list makes the resolver fail with a `TypeError`. -/
theorem get_on_call_days_records_only (y mo : Nat) (l l' : List (String × String))
    (hd : l.map Prod.fst = l'.map Prod.fst) (hs : List HolidayInput) (s : String)
    (hmem : HolidayInput.plain s ∈ hs) :
    get_on_call_days_pure y mo (l.map (fun p => HolidayInput.record p.1 p.2))
        = get_on_call_days_pure y mo (l'.map (fun p => HolidayInput.record p.1 p.2))
  ∧ get_on_call_days_pure y mo hs = .error .typeError := by
  constructor
  · unfold get_on_call_days_pure
    rw [holidayDates_records, holidayDates_records, hd]
  · unfold get_on_call_days_pure
    rw [holidayDates_plain_mem hmem]

/-- Witness for the amended claim C5 at concrete inputs. -/
theorem get_on_call_days_records_only_witness :
    ([("2025-10-20", "a")].map (Prod.fst (α := String) (β := String))
        = [("2025-10-20", "b")].map Prod.fst)
  ∧ (HolidayInput.plain "x" ∈ [HolidayInput.plain "x"])
  ∧ (get_on_call_days_pure 2025 10
        ([("2025-10-20", "a")].map (fun p => HolidayInput.record p.1 p.2))
        = get_on_call_days_pure 2025 10
        ([("2025-10-20", "b")].map (fun p => HolidayInput.record p.1 p.2))
      ∧ get_on_call_days_pure 2025 10 [HolidayInput.plain "x"]
        = .error .typeError) :=
  ⟨rfl, by decide,
    get_on_call_days_records_only 2025 10 [("2025-10-20", "a")]
      [("2025-10-20", "b")] rfl [HolidayInput.plain "x"] "x" (by decide)⟩

/-- Claim C6 (code bug): a preference date that is not an on-call day does
not make the scan move on — line 172 of `src/app.py` subscripts
`team_assignments_this_month[preferred_day]` before the availability guard is
used, so the simulator raises `KeyError` instead of completing. -/
theorem sim_keyerror_on_non_oncall_pref :
    run_schedule_simulation "2025-10" [c6team] [c6eng] [] none
      = .error .keyError := rfl

theorem calc_of_lookup_some {t : TeamRec} {m : List (String × EngineerRec)}
    {month_str : String} {g : List (List String)}
    (hmp : alookup t.monthlyPriorities month_str = some g) :
    _calculate_monthly_priorities_and_save t m month_str
      = (t, false, groupsToEngs m g) := by
  unfold _calculate_monthly_priorities_and_save
  rw [hmp]

theorem calc_of_lookup_none {t : TeamRec} {m : List (String × EngineerRec)}
    {month_str : String}
    (hmp : alookup t.monthlyPriorities month_str = none) :
    _calculate_monthly_priorities_and_save t m month_str
      = ({ t with monthlyPriorities :=
            dictInsert t.monthlyPriorities month_str (missRotated t m month_str) },
         true,
         groupsToEngs m
           (alookupD
             (dictInsert t.monthlyPriorities month_str (missRotated t m month_str))
             month_str [])) := by
  unfold _calculate_monthly_priorities_and_save missRotated
  rw [hmp]

theorem alookup_dictInsert_new {α : Type} {mp : List (String × α)} {k : String}
    (hmp : alookup mp k = none) (v : α) : alookup (dictInsert mp k v) k = some v := by
  unfold dictInsert
  rw [hmp]
  simp only [Option.isSome_none, Bool.false_eq_true, if_false]
  rw [alookup_append_right hmp]
  simp [alookup]

/-- Claim C7: resolving a team's monthly priority is idempotent — a second
call with unchanged engineer data returns the same team row and the same
groups, and performs no second snapshot write. -/
theorem resolvePriority_idempotent (t : TeamRec) (m : List (String × EngineerRec))
    (month_str : String) :
    (_calculate_monthly_priorities_and_save
        (_calculate_monthly_priorities_and_save t m month_str).1 m month_str).1
      = (_calculate_monthly_priorities_and_save t m month_str).1
  ∧ (_calculate_monthly_priorities_and_save
        (_calculate_monthly_priorities_and_save t m month_str).1 m month_str).2.1
      = false
  ∧ (_calculate_monthly_priorities_and_save
        (_calculate_monthly_priorities_and_save t m month_str).1 m month_str).2.2
      = (_calculate_monthly_priorities_and_save t m month_str).2.2 := by
  cases hmp : alookup t.monthlyPriorities month_str with
  | some final =>
    rw [calc_of_lookup_some hmp]
    dsimp only
    rw [calc_of_lookup_some hmp]
    exact ⟨rfl, rfl, rfl⟩
  | none =>
    have hins : alookup
        (dictInsert t.monthlyPriorities month_str (missRotated t m month_str))
        month_str = some (missRotated t m month_str) :=
      alookup_dictInsert_new hmp _
    rw [calc_of_lookup_none hmp]
    dsimp only
    rw [calc_of_lookup_some hins]
    dsimp only
    refine ⟨rfl, rfl, ?_⟩
    rw [alookupD, hins]
    rfl

/-- Claim C4, counterexample: the simulator's guard compares
`consecutive_pref` against the literal `'avoid'` (line 174), so an engineer
whose flag is `avoid-adjacent` receives no adjacency protection: here `Z` is
assigned to the first two on-call days of October 2025, which are adjacent in
the ordered on-call-day list. -/
theorem avoid_adjacent_flag_cex :
    c4eng.consecutive_pref = "avoid-adjacent"
  ∧ Except.map (fun l => (l.get? 0, l.get? 1)) (get_on_call_days_pure 2025 10 [])
      = .ok (some "2025-10-04", some "2025-10-05")
  ∧ Except.map
      (fun fin => (alookupD fin "2025-10-04" [], alookupD fin "2025-10-05" []))
      (run_schedule_simulation "2025-10" [c4team] [c4eng] [] none)
      = .ok (["Z"], ["Z"]) :=
  ⟨rfl, rfl, rfl⟩

/-- Claim C9, counterexample: exactly two engineers (`A`, `B`) of team `T`
have `maxShifts` 1 and the single on-call day `2025-10-04` as their only
preference, and that day's effective capacity is 1 — yet the day goes to the
third engineer `C` (cap 2, ranked first), so neither of the two is assigned
and in particular not the better-ranked of the two (`A`). -/
theorem higher_priority_pair_cex :
    c9engA.maxShifts = 1 ∧ c9engB.maxShifts = 1
  ∧ alookup c9engA.preferences "2025-10" = some ["2025-10-04"]
  ∧ alookup c9engB.preferences "2025-10" = some ["2025-10-04"]
  ∧ c9engC.maxShifts = 2
  ∧ effCap c9team "2025-10-04" = 1
  ∧ (monthlyPriorityList "2025-10" (buildEngMap [c9engA, c9engB, c9engC]) c9team).map
      (fun e => e.name) = ["C", "A", "B"]
  ∧ Except.map (fun fin => alookupD fin "2025-10-04" [])
      (run_schedule_simulation "2025-10" [c9team] [c9engA, c9engB, c9engC] [] none)
      = .ok ["C"] :=
  ⟨rfl, rfl, rfl, rfl, rfl, rfl, rfl, rfl⟩

/-! ### Generic bookkeeping lemmas -/

theorem contains_iff {l : List String} {a : String} : l.contains a = true ↔ a ∈ l :=
  List.elem_iff

theorem contains_false_iff {l : List String} {a : String} :
    l.contains a = false ↔ a ∉ l := by
  constructor
  · intro h hm
    rw [contains_iff.mpr hm] at h
    exact Bool.noConfusion h
  · intro h
    cases hc : l.contains a with
    | false => rfl
    | true => exact absurd (contains_iff.mp hc) h

theorem alookup_eq_of_mem_nodup {α : Type} {m : List (String × α)}
    (hnd : KeysNodup m) {p : String × α} (hp : p ∈ m) : alookup m p.1 = some p.2 := by
  induction m with
  | nil => simp at hp
  | cons q rest ih =>
    rcases List.mem_cons.mp hp with he | hr
    · subst he
      simp [alookup]
    · have hq : q.1 ∉ rest.map Prod.fst := by
        have := hnd
        unfold KeysNodup at this
        simp only [List.map_cons, List.nodup_cons] at this
        exact this.1
      have hne : p.1 ≠ q.1 := by
        intro he
        exact hq (he ▸ List.mem_map_of_mem Prod.fst hr)
      simp only [alookup, hne, if_false]
      exact ih (List.Nodup.of_cons hnd) hr

theorem alookup_mapIncr (m : List (String × Nat)) (k k' : String) :
    alookup (mapIncr m k) k'
      = if k' = k then (alookup m k').map (· + 1) else alookup m k' := by
  induction m with
  | nil => simp [mapIncr, alookup]
  | cons p rest ih =>
    simp only [mapIncr, List.map_cons] at ih ⊢
    by_cases hp : p.1 = k
    · rw [if_pos hp]
      by_cases hk : k' = k
      · subst hk
        simp [alookup, hp, ih]
      · have hne : k' ≠ p.1 := fun he => hk (he.trans hp)
        simp [alookup, hne, hk, ih]
    · rw [if_neg hp]
      by_cases hk : k' = p.1
      · have hne : ¬(k' = k) := fun he => hp ((he.symm.trans hk).symm)
        simp [alookup, hk, hne, hp]
      · simp [alookup, hk, ih]

theorem mapIncr_map_fst (m : List (String × Nat)) (k : String) :
    (mapIncr m k).map Prod.fst = m.map Prod.fst := by
  induction m with
  | nil => rfl
  | cons p rest ih =>
    simp only [mapIncr, List.map_cons] at ih ⊢
    by_cases hp : p.1 = k
    · simp [hp, ih]
    · simp [hp, ih]

theorem get?_some_unique {l : List String} (hnd : l.Nodup) {i j : Nat} {a : String}
    (hi : l.get? i = some a) (hj : l.get? j = some a) : i = j := by
  have hlen : i < l.length := by
    by_contra hge
    rw [List.get?_eq_none.mpr (Nat.le_of_not_lt hge)] at hi
    exact Option.noConfusion hi
  exact List.get?_inj hlen hnd (hi.trans hj.symm)

theorem mem_of_get?_eq_some {l : List String} {i : Nat} {a : String}
    (h : l.get? i = some a) : a ∈ l := List.get?_mem h

theorem idxMap_lookup_get : ∀ {l : List String} {s i : Nat} {d : String},
    alookup (idxMap s l) d = some i → s ≤ i ∧ l.get? (i - s) = some d := by
  intro l
  induction l with
  | nil => intro s i d h; simp [idxMap, alookup] at h
  | cons a as ih =>
    intro s i d h
    simp only [idxMap, alookup] at h
    by_cases hd : d = a
    · rw [if_pos hd] at h
      have hi : i = s := (Option.some_inj.mp h).symm
      subst hi
      subst hd
      simp
    · rw [if_neg hd] at h
      obtain ⟨hs, hg⟩ := ih h
      refine ⟨Nat.le_of_succ_le hs, ?_⟩
      have h1 : i - s = (i - (s + 1)) + 1 := by omega
      rw [h1]
      simpa using hg

theorem idxMap0_get {ocd : List String} {d : String} {i : Nat}
    (h : alookup (idxMap 0 ocd) d = some i) : ocd.get? i = some d := by
  have := (idxMap_lookup_get h).2
  simpa using this

theorem getD_of_get? {l : List String} {i : Nat} {a : String}
    (h : l.get? i = some a) (dflt : String) : l.getD i dflt = a := by
  have : l.getD i dflt = (l.get? i).getD dflt := rfl
  rw [this, h]
  rfl

/-! ### occD lemmas -/

theorem occD_congr {ocd : List String} {A B : List (String × List String)}
    {n : String} (h : ∀ d ∈ ocd, (n ∈ dayList A d ↔ n ∈ dayList B d)) :
    occD ocd A n = occD ocd B n := by
  unfold occD
  rw [List.filter_congr]
  intro d hd
  cases hA : (dayList A d).contains n with
  | false =>
    cases hB : (dayList B d).contains n with
    | false => rfl
    | true =>
      exfalso
      exact contains_false_iff.mp hA ((h d hd).mpr (contains_iff.mp hB))
  | true =>
    cases hB : (dayList B d).contains n with
    | true => rfl
    | false =>
      exfalso
      exact contains_false_iff.mp hB ((h d hd).mp (contains_iff.mp hA))

theorem filter_length_succ : ∀ {l : List String}, l.Nodup → ∀ {x : String}, x ∈ l →
    ∀ {p q : String → Bool}, (∀ y ∈ l, y ≠ x → p y = q y) → p x = false → q x = true →
    (l.filter q).length = (l.filter p).length + 1 := by
  intro l
  induction l with
  | nil => intro _ x hx; simp at hx
  | cons a as ih =>
    intro hnd x hx p q hpq hpx hqx
    have hnda : a ∉ as := (List.nodup_cons.mp hnd).1
    have hnd' : as.Nodup := (List.nodup_cons.mp hnd).2
    by_cases hax : x = a
    · subst hax
      simp only [List.filter_cons, hqx, hpx]
      have : as.filter q = as.filter p := by
        apply List.filter_congr
        intro y hy
        exact (hpq y (List.mem_cons_of_mem x hy) (fun he => hnda (he ▸ hy))).symm
      simp [this]
    · have hxas : x ∈ as := (List.mem_cons.mp hx).resolve_left
        (fun he => hax he)
      have hpa : p a = q a := hpq a (List.mem_cons_self a as) (fun he => hax he.symm)
      have hrec := ih hnd' hxas
        (fun y hy hyx => hpq y (List.mem_cons_of_mem a hy) hyx) hpx hqx
      simp only [List.filter_cons, ← hpa]
      cases hpav : p a with
      | false => simpa [hpav] using hrec
      | true => simp [hpav, hrec]

theorem occD_setAt_self {ocd : List String} (hnd : ocd.Nodup)
    {asg : List (String × List String)} {d : String} {l : List String}
    (hd : d ∈ ocd) (hl : alookup asg d = some l) {n : String} (hn : n ∉ l) :
    occD ocd (setAt asg d (l ++ [n])) n = occD ocd asg n + 1 := by
  unfold occD
  apply filter_length_succ hnd hd
  · intro y hy hyd
    unfold dayList
    rw [alookup_setAt_ne asg hyd]
  · unfold dayList
    rw [hl]
    exact contains_false_iff.mpr hn
  · unfold dayList
    rw [alookup_setAt_self hl]
    exact contains_iff.mpr (by simp)

theorem occD_setAt_other {ocd : List String}
    {asg : List (String × List String)} {d : String} {l : List String}
    (hl : alookup asg d = some l) {x n : String} (hxn : n ≠ x) :
    occD ocd (setAt asg d (l ++ [x])) n = occD ocd asg n := by
  apply occD_congr
  intro y _
  unfold dayList
  by_cases hyd : y = d
  · subst hyd
    rw [alookup_setAt_self hl, hl]
    simp only [Option.getD_some]
    constructor
    · intro hm
      rcases List.mem_append.mp hm with h1 | h1
      · exact h1
      · exact absurd (List.mem_singleton.mp h1) hxn
    · intro hm
      exact List.mem_append.mpr (Or.inl hm)
  · rw [alookup_setAt_ne asg hyd]

theorem occD_pos_day {ocd : List String} {asg : List (String × List String)}
    {n d : String} (hd : d ∈ ocd) (hmem : n ∈ dayList asg d) :
    1 ≤ occD ocd asg n := by
  unfold occD
  have : d ∈ ocd.filter (fun d => (dayList asg d).contains n) :=
    List.mem_filter.mpr ⟨hd, contains_iff.mpr hmem⟩
  exact List.length_pos_of_mem this

theorem mem_setAt {α : Type} {m : List (String × α)} {k : String} {v : α}
    {q : String × α} (hq : q ∈ setAt m k v) :
    (q.1 ≠ k ∧ q ∈ m) ∨ (q.1 = k ∧ q.2 = v ∧ ∃ old, (k, old) ∈ m) := by
  unfold setAt at hq
  obtain ⟨p, hp, hfp⟩ := List.mem_map.mp hq
  by_cases hpk : p.1 = k
  · rw [if_pos hpk] at hfp
    right
    refine ⟨?_, ?_, ⟨p.2, ?_⟩⟩
    · rw [← hfp]
      exact hpk
    · rw [← hfp]
    · have hpe : p = (k, p.2) := by
        cases p
        simp only at hpk
        simp [hpk]
      rw [← hpe]
      exact hp
  · rw [if_neg hpk] at hfp
    left
    exact ⟨by rw [← hfp]; exact hpk, by rw [← hfp]; exact hp⟩

theorem dayList_setAt_ne {asg : List (String × List String)} {d x : String}
    (h : x ≠ d) (v : List String) : dayList (setAt asg d v) x = dayList asg x := by
  unfold dayList
  rw [alookup_setAt_ne asg h]

theorem dayList_setAt_self {asg : List (String × List String)} {d : String}
    {l : List String} (hl : alookup asg d = some l) (v : List String) :
    dayList (setAt asg d v) d = v := by
  unfold dayList
  rw [alookup_setAt_self hl]
  rfl

theorem idxMap_lookup_isSome : ∀ {l : List String} (s : Nat) {d : String},
    d ∈ l → ∃ i, alookup (idxMap s l) d = some i := by
  intro l
  induction l with
  | nil => intro s d hd; simp at hd
  | cons a as ih =>
    intro s d hd
    simp only [idxMap, alookup]
    by_cases hda : d = a
    · exact ⟨s, by rw [if_pos hda]⟩
    · obtain ⟨i, hi⟩ := ih (s + 1) ((List.mem_cons.mp hd).resolve_left hda)
      exact ⟨i, by rw [if_neg hda]; exact hi⟩

theorem key_mem_ocd {st : TeamSimState} {t : TeamData}
    {m : List (String × EngineerData)} {ocd : List String} (hInv : InvT t m ocd st)
    {d : String} {l : List String} (hl : alookup st.asg d = some l) : d ∈ ocd := by
  have hm : (d, l) ∈ st.asg := alookup_mem hl
  have : d ∈ st.asg.map Prod.fst := List.mem_map_of_mem Prod.fst hm
  rw [hInv.keys] at this
  exact this

/-- Appending an engineer to an eligible day preserves the pass invariant. -/
theorem assign_step_inv {t : TeamData} {m : List (String × EngineerData)}
    {ocd : List String} (hnd : ocd.Nodup) {e : EngineerData}
    (he : alookup m e.name = some e) {st : TeamSimState}
    (hInv : InvT t m ocd st) {c : Nat}
    (hc : alookup st.counts e.name = some c) (hcm : c < e.maxShifts)
    {d : String} {l : List String} (hl : alookup st.asg d = some l)
    (hlen : l.length < alookupD t.shift_overrides d t.shifts_per_day)
    (hnotin : e.name ∉ l)
    (hadj : e.consecutive_pref = "avoid" →
      ∀ i, alookup (idxMap 0 ocd) d = some i →
        ((decide (0 < i) &&
            ((alookup st.asg (ocd.getD (i - 1) "")).getD []).contains e.name) ||
         (decide (i < ocd.length - 1) &&
            ((alookup st.asg (ocd.getD (i + 1) "")).getD []).contains e.name))
          = false) :
    InvT t m ocd ⟨mapIncr st.counts e.name, setAt st.asg d (l ++ [e.name])⟩ := by
  have hdc : d ∈ ocd := key_mem_ocd hInv hl
  have hlnd : l.Nodup := hInv.nodupDays (d, l) (alookup_mem hl)
  refine ⟨?_, ?_, ?_, ?_, ?_, ?_, ?_⟩
  · -- keys
    show (setAt st.asg d (l ++ [e.name])).map Prod.fst = ocd
    rw [setAt_map_fst]
    exact hInv.keys
  · -- nodupDays
    intro p hp
    rcases mem_setAt hp with ⟨_, hpm⟩ | ⟨_, hpv, _⟩
    · exact hInv.nodupDays p hpm
    · rw [hpv]
      refine hlnd.append (List.nodup_singleton _) ?_
      intro a ha hb
      rw [List.mem_singleton.mp hb] at ha
      exact hnotin ha
  · -- cap
    intro p hp
    rcases mem_setAt hp with ⟨_, hpm⟩ | ⟨hpk, hpv, _⟩
    · exact hInv.cap p hpm
    · rw [hpv, hpk]
      show (l ++ [e.name]).length ≤ effCap t d
      rw [List.length_append]
      exact hlen
  · -- countsTeam
    intro n hsome
    rw [alookup_mapIncr] at hsome
    by_cases hne : n = e.name
    · rw [if_pos hne] at hsome
      apply hInv.countsTeam n
      cases ho : alookup st.counts n with
      | none => rw [ho] at hsome; simp at hsome
      | some c' => rfl
    · rw [if_neg hne] at hsome
      exact hInv.countsTeam n hsome
  · -- countsVal
    intro n c' hcn
    rw [alookup_mapIncr] at hcn
    by_cases hne : n = e.name
    · subst hne
      rw [if_pos rfl, hc] at hcn
      have hcv : c' = c + 1 := (Option.some_inj.mp hcn).symm
      subst hcv
      have hold := hInv.countsVal e.name c hc
      constructor
      · rw [occD_setAt_self hnd hdc hl hnotin]
        omega
      · have hmax : maxOf m e.name = e.maxShifts := by
          unfold maxOf
          rw [he]
        rw [hmax]
        omega
    · rw [if_neg hne] at hcn
      have hold := hInv.countsVal n c' hcn
      rw [occD_setAt_other hl hne]
      exact hold
  · -- countsNone
    intro n hnone
    rw [alookup_mapIncr] at hnone
    by_cases hne : n = e.name
    · rw [if_pos hne, hne, hc] at hnone
      simp at hnone
    · rw [if_neg hne] at hnone
      rw [occD_setAt_other hl hne]
      exact hInv.countsNone n hnone
  · -- adj
    intro n hav j d1 d2 hg1 hg2 hboth
    by_cases hne : n = e.name
    case neg =>
      have htr : ∀ x, n ∈ dayList (setAt st.asg d (l ++ [e.name])) x →
          n ∈ dayList st.asg x := by
        intro x hx
        by_cases hxd : x = d
        · subst hxd
          rw [dayList_setAt_self hl] at hx
          rcases List.mem_append.mp hx with h1 | h1
          · unfold dayList
            rw [hl]
            exact h1
          · exact absurd (List.mem_singleton.mp h1) hne
        · rw [dayList_setAt_ne hxd] at hx
          exact hx
      exact hInv.adj n hav j d1 d2 hg1 hg2 ⟨htr d1 hboth.1, htr d2 hboth.2⟩
    case pos =>
      subst hne
      obtain ⟨e', he', hpref'⟩ := hav
      have hee : e = e' := Option.some_inj.mp (he.symm.trans he')
      subst hee
      obtain ⟨i, hidx⟩ := idxMap_lookup_isSome 0 hdc
      have hbool := hadj hpref' i hidx
      have hocd_i : ocd.get? i = some d := idxMap0_get hidx
      have hsplit : (decide (0 < i) &&
            ((alookup st.asg (ocd.getD (i - 1) "")).getD []).contains e.name) = false
          ∧ (decide (i < ocd.length - 1) &&
            ((alookup st.asg (ocd.getD (i + 1) "")).getD []).contains e.name)
              = false := by
        constructor
        · cases hb : (decide (0 < i) &&
              ((alookup st.asg (ocd.getD (i - 1) "")).getD []).contains e.name) with
          | false => rfl
          | true => rw [hb] at hbool; simp at hbool
        · cases hb : (decide (i < ocd.length - 1) &&
              ((alookup st.asg (ocd.getD (i + 1) "")).getD []).contains e.name) with
          | false => rfl
          | true => rw [hb] at hbool; simp at hbool
      by_cases h1d : d1 = d
      · subst h1d
        have hji : j = i := get?_some_unique hnd hg1 hocd_i
        subst hji
        have h2d : d2 ≠ d1 := by
          intro he2
          have := get?_some_unique hnd (he2 ▸ hg2) hg1
          omega
        have hlen2 : j + 1 < ocd.length := by
          by_contra hge
          rw [List.get?_eq_none.mpr (Nat.le_of_not_lt hge)] at hg2
          exact Option.noConfusion hg2
        have hdec : decide (j < ocd.length - 1) = true := by
          simp only [decide_eq_true_eq]
          omega
        have hgd : ocd.getD (j + 1) "" = d2 := getD_of_get? hg2 ""
        have hcontains : ((alookup st.asg d2).getD []).contains e.name = false := by
          have := hsplit.2
          rw [hdec, hgd] at this
          simpa using this
        have hmem2 : e.name ∈ dayList st.asg d2 := by
          have := hboth.2
          rw [dayList_setAt_ne h2d] at this
          exact this
        exact contains_false_iff.mp hcontains hmem2
      · by_cases h2d : d2 = d
        · subst h2d
          have hji : j + 1 = i := get?_some_unique hnd hg2 hocd_i
          have hpos : decide (0 < i) = true := by
            simp only [decide_eq_true_eq]
            omega
          have hgd : ocd.getD (i - 1) "" = d1 := by
            have h1j : i - 1 = j := by omega
            rw [h1j]
            exact getD_of_get? hg1 ""
          have hcontains : ((alookup st.asg d1).getD []).contains e.name = false := by
            have := hsplit.1
            rw [hpos, hgd] at this
            simpa using this
          have hmem1 : e.name ∈ dayList st.asg d1 := by
            have := hboth.1
            rw [dayList_setAt_ne h1d] at this
            exact this
          exact contains_false_iff.mp hcontains hmem1
        · have hm1 : e.name ∈ dayList st.asg d1 := by
            have := hboth.1
            rw [dayList_setAt_ne h1d] at this
            exact this
          have hm2 : e.name ∈ dayList st.asg d2 := by
            have := hboth.2
            rw [dayList_setAt_ne h2d] at this
            exact this
          exact hInv.adj e.name ⟨e, he, hpref'⟩ j d1 d2 hg1 hg2 ⟨hm1, hm2⟩

/-- The day-scan of one engineer preserves the pass invariant. -/
theorem attemptDays_inv {t : TeamData} {m : List (String × EngineerData)}
    {ocd : List String} (hnd : ocd.Nodup) {e : EngineerData}
    (he : alookup m e.name = some e) {st st' : TeamSimState} {c : Nat}
    (hc : alookup st.counts e.name = some c) (hcm : c < e.maxShifts)
    (hInv : InvT t m ocd st) :
    ∀ {prefs : List String}, attemptDays t ocd e prefs st = .ok st' →
      InvT t m ocd st' := by
  intro prefs
  induction prefs with
  | nil =>
    intro h
    simp only [attemptDays, Except.ok.injEq] at h
    rw [← h]
    exact hInv
  | cons d rest ih =>
    intro h
    simp only [attemptDays] at h
    split at h
    · exact absurd h (by simp)
    · rename_i l hld
      by_cases hcond : (decide (l.length < alookupD t.shift_overrides d t.shifts_per_day)
          && !(l.contains e.name)) = true
      · rw [if_pos hcond] at h
        have hcond2 := hcond
        rw [Bool.and_eq_true] at hcond2
        have hlen : l.length < alookupD t.shift_overrides d t.shifts_per_day :=
          of_decide_eq_true hcond2.1
        have hnotin : e.name ∉ l := by
          have h2 := hcond2.2
          cases hcont : l.contains e.name with
          | false => exact contains_false_iff.mp hcont
          | true => rw [hcont] at h2; simp at h2
        by_cases hpref : (e.consecutive_pref == "avoid") = true
        · rw [if_pos hpref] at h
          split at h
          · exact absurd h (by simp)
          · rename_i i hidx
            by_cases hadjb : ((decide (0 < i) &&
                  ((alookup st.asg (ocd.getD (i - 1) "")).getD []).contains e.name) ||
                (decide (i < ocd.length - 1) &&
                  ((alookup st.asg (ocd.getD (i + 1) "")).getD []).contains e.name))
                = true
            · rw [if_pos hadjb] at h
              exact ih h
            · rw [if_neg hadjb] at h
              simp only [Except.ok.injEq] at h
              rw [← h]
              refine assign_step_inv hnd he hInv hc hcm hld hlen hnotin ?_
              intro _ i' hidx'
              have hii : i' = i := Option.some_inj.mp (hidx'.symm.trans hidx)
              subst hii
              exact Bool.eq_false_iff.mpr hadjb
        · rw [if_neg hpref] at h
          simp only [Except.ok.injEq] at h
          rw [← h]
          refine assign_step_inv hnd he hInv hc hcm hld hlen hnotin ?_
          intro hpe _ _
          exact absurd (beq_iff_eq.mpr hpe) hpref
      · rw [if_neg hcond] at h
        exact ih h

/-- One engineer's turn preserves the pass invariant. -/
theorem engineerStep_inv {month_str : String} {t : TeamData}
    {m : List (String × EngineerData)} {ocd : List String} (hnd : ocd.Nodup)
    {e : EngineerData} (he : alookup m e.name = some e) {st st' : TeamSimState}
    (hInv : InvT t m ocd st)
    (h : engineerStep month_str t ocd e st = .ok st') : InvT t m ocd st' := by
  unfold engineerStep at h
  split at h
  · exact absurd h (by simp)
  · rename_i c hcnt
    by_cases hcm : c < e.maxShifts
    · rw [if_pos hcm] at h
      by_cases hp : (alookupD e.preferences month_str []).isEmpty = true
      · rw [if_pos hp] at h
        simp only [Except.ok.injEq] at h
        rw [← h]
        exact hInv
      · rw [if_neg hp] at h
        exact attemptDays_inv hnd he hcnt hcm hInv h
    · rw [if_neg hcm] at h
      simp only [Except.ok.injEq] at h
      rw [← h]
      exact hInv

/-- A pass preserves the invariant. -/
theorem passFold_inv {month_str : String} {t : TeamData}
    {m : List (String × EngineerData)} {ocd : List String} (hnd : ocd.Nodup) :
    ∀ {es : List EngineerData} {st st' : TeamSimState},
      (∀ f ∈ es, alookup m f.name = some f) → InvT t m ocd st →
      passFold month_str t ocd es st = .ok st' → InvT t m ocd st' := by
  intro es
  induction es with
  | nil =>
    intro st st' _ hInv h
    simp only [passFold, Except.ok.injEq] at h
    rw [← h]
    exact hInv
  | cons f rest ih =>
    intro st st' hes hInv h
    simp only [passFold] at h
    split at h
    · exact absurd h (by simp)
    · rename_i st1 hstep
      have hf := hes f (List.mem_cons_self f rest)
      exact ih (fun g hg => hes g (List.mem_cons_of_mem f hg))
        (engineerStep_inv hnd hf hInv hstep) h

/-- All passes preserve the invariant. -/
theorem runPasses_inv {month_str : String} {t : TeamData}
    {m : List (String × EngineerData)} {ocd : List String} (hnd : ocd.Nodup)
    {plist : List EngineerData} (hes : ∀ f ∈ plist, alookup m f.name = some f) :
    ∀ {n : Nat} {st st' : TeamSimState}, InvT t m ocd st →
      runPasses month_str t ocd plist n st = .ok st' → InvT t m ocd st' := by
  intro n
  induction n with
  | zero =>
    intro st st' hInv h
    simp only [runPasses, Except.ok.injEq] at h
    rw [← h]
    exact hInv
  | succ k ih =>
    intro st st' hInv h
    simp only [runPasses] at h
    split at h
    · exact absurd h (by simp)
    · rename_i st1 hpass
      exact ih (passFold_inv hnd hes hInv hpass) h

theorem alookup_map_zero {es : List EngineerData} {n : String} {c : Nat}
    (h : alookup (es.map (fun e => (e.name, 0))) n = some c) :
    c = 0 ∧ ∃ e ∈ es, e.name = n := by
  induction es with
  | nil => simp [alookup] at h
  | cons f rest ih =>
    simp only [List.map_cons, alookup] at h
    by_cases hn : n = f.name
    · rw [if_pos hn] at h
      exact ⟨(Option.some_inj.mp h).symm, ⟨f, List.mem_cons_self f rest, hn.symm⟩⟩
    · rw [if_neg hn] at h
      obtain ⟨hc, e, hee, hen⟩ := ih h
      exact ⟨hc, ⟨e, List.mem_cons_of_mem f hee, hen⟩⟩

theorem map_fst_pair_nil (l : List String) :
    (l.map (fun d => (d, ([] : List String)))).map Prod.fst = l := by
  induction l with
  | nil => rfl
  | cons a as ih => simp [ih]

theorem dayList_const_nil : ∀ (l : List String) (x : String),
    dayList (l.map (fun d => (d, ([] : List String)))) x = [] := by
  intro l
  induction l with
  | nil => intro x; rfl
  | cons a as ih =>
    intro x
    unfold dayList
    simp only [List.map_cons, alookup]
    by_cases hx : x = a
    · simp [hx]
    · rw [if_neg hx]
      exact ih x

theorem occD_const_nil (ocd : List String) (n : String) :
    occD ocd (ocd.map (fun d => (d, ([] : List String)))) n = 0 := by
  unfold occD
  rw [List.filter_eq_nil_iff.mpr]
  · rfl
  · intro d _
    rw [dayList_const_nil]
    simp

/-- A name found in the working map by a stored key is found by its own name. -/
theorem lookup_self_of_lookup {m : List (String × EngineerData)}
    (hknd : KeysNodup m) (hwf : MapNamesOk m) {k : String} {f : EngineerData}
    (h : alookup m k = some f) : alookup m f.name = some f := by
  have hm := alookup_mem h
  have hname : f.name = k := hwf (k, f) hm
  rw [hname]
  exact h

theorem plist_lookup {month_str : String} {m : List (String × EngineerData)}
    {t : TeamData} (hknd : KeysNodup m) (hwf : MapNamesOk m) :
    ∀ f ∈ monthlyPriorityList month_str m t, alookup m f.name = some f := by
  intro f hf
  unfold monthlyPriorityList at hf
  obtain ⟨k, _, hk⟩ := List.mem_filterMap.mp hf
  exact lookup_self_of_lookup hknd hwf hk

/-- The invariant holds for the freshly initialised per-team state. -/
theorem initial_inv {t : TeamData} {m : List (String × EngineerData)}
    {ocd : List String} (hnd : ocd.Nodup) (hknd : KeysNodup m)
    (hwf : MapNamesOk m) :
    InvT t m ocd
      ⟨((m.map Prod.snd).filter (fun e => e.team == t.name)).map
          (fun e => (e.name, 0)),
        ocd.map (fun d => (d, ([] : List String)))⟩ := by
  refine ⟨?_, ?_, ?_, ?_, ?_, ?_, ?_⟩
  · exact map_fst_pair_nil ocd
  · intro p hp
    obtain ⟨d, _, hd⟩ := List.mem_map.mp hp
    rw [← hd]
    exact List.nodup_nil
  · intro p hp
    obtain ⟨d, _, hd⟩ := List.mem_map.mp hp
    rw [← hd]
    exact Nat.zero_le _
  · intro n hsome
    cases hcnt : alookup (((m.map Prod.snd).filter
        (fun e => e.team == t.name)).map (fun e => (e.name, 0))) n with
    | none => rw [hcnt] at hsome; simp at hsome
    | some c =>
      obtain ⟨_, e, hee, hen⟩ := alookup_map_zero hcnt
      have hfe := List.mem_filter.mp hee
      obtain ⟨p, hpm, hps⟩ := List.mem_map.mp hfe.1
      subst hps
      subst hen
      exact ⟨p.2,
        lookup_self_of_lookup hknd hwf (alookup_eq_of_mem_nodup hknd hpm),
        beq_iff_eq.mp hfe.2⟩
  · intro n c hcn
    obtain ⟨hc0, _⟩ := alookup_map_zero hcn
    subst hc0
    exact ⟨(occD_const_nil ocd n).symm, Nat.zero_le _⟩
  · intro n _
    exact occD_const_nil ocd n
  · intro n _ j d1 d2 _ _ hboth
    rw [dayList_const_nil] at hboth
    simp at hboth

/-- Specification of a completed team run. -/
theorem processTeam_spec {month_str : String} {ocd : List String}
    {m : List (String × EngineerData)} {t : TeamData}
    {asgT : List (String × List String)} (hnd : ocd.Nodup) (hknd : KeysNodup m)
    (hwf : MapNamesOk m)
    (h : processTeam month_str ocd m t = .ok (some asgT)) :
    asgT.map Prod.fst = ocd
  ∧ (∀ p ∈ asgT, p.2.Nodup)
  ∧ (∀ p ∈ asgT, p.2.length ≤ effCap t p.1)
  ∧ (∀ p ∈ asgT, ∀ n ∈ p.2, ∃ e, alookup m n = some e ∧ e.team = t.name)
  ∧ (∀ n, occD ocd asgT n ≤ maxOf m n)
  ∧ (∀ n, isAvoid m n → adjFree ocd asgT n) := by
  unfold processTeam at h
  by_cases hemp : ((m.map Prod.snd).filter (fun e => e.team == t.name)).isEmpty = true
  · rw [if_pos hemp] at h
    simp at h
  · rw [if_neg hemp] at h
    split at h
    · exact absurd h (by simp)
    · rename_i st hrun
      simp only [Except.ok.injEq, Option.some.injEq] at h
      have hInv : InvT t m ocd st :=
        runPasses_inv hnd (plist_lookup hknd hwf)
          (initial_inv hnd hknd hwf) hrun
      subst h
      have hkeysnd : KeysNodup st.asg := by
        unfold KeysNodup
        rw [hInv.keys]
        exact hnd
      refine ⟨hInv.keys, hInv.nodupDays, hInv.cap, ?_, ?_, hInv.adj⟩
      · intro p hp n hn
        have hlk : alookup st.asg p.1 = some p.2 :=
          alookup_eq_of_mem_nodup hkeysnd hp
        have hdmem : p.1 ∈ ocd := key_mem_ocd hInv hlk
        have hday : n ∈ dayList st.asg p.1 := by
          unfold dayList
          rw [hlk]
          exact hn
        have hocc : 1 ≤ occD ocd st.asg n := occD_pos_day hdmem hday
        cases hcnt : alookup st.counts n with
        | none =>
          have := hInv.countsNone n hcnt
          omega
        | some c => exact hInv.countsTeam n (by rw [hcnt]; rfl)
      · intro n
        cases hcnt : alookup st.counts n with
        | none =>
          rw [hInv.countsNone n hcnt]
          exact Nat.zero_le _
        | some c =>
          have := hInv.countsVal n c hcnt
          omega

/-! ### Merging team results into the final map -/

theorem alookup_none_of_fst_not_mem {α : Type} {m : List (String × α)} {key : String}
    (h : key ∉ m.map Prod.fst) : alookup m key = none := by
  cases hl : alookup m key with
  | none => rfl
  | some v =>
    exact absurd (List.mem_map_of_mem Prod.fst (alookup_mem hl)) h

theorem setdefaultExtend_found {fin : List (String × List String)} {k : String}
    {lk : List String} (hk : alookup fin k = some lk) (ns : List String) :
    setdefaultExtend fin k ns = setAt fin k (lk ++ ns) := by
  unfold setdefaultExtend
  rw [hk]

theorem mergeAsg_cons (fin : List (String × List String)) (k : String)
    (ns : List String) (rest : List (String × List String)) :
    mergeAsg fin ((k, ns) :: rest) = mergeAsg (setdefaultExtend fin k ns) rest := rfl

theorem mergeAsg_map_fst : ∀ {asgT fin : List (String × List String)},
    (∀ k ∈ asgT.map Prod.fst, (alookup fin k).isSome = true) →
    (mergeAsg fin asgT).map Prod.fst = fin.map Prod.fst := by
  intro asgT
  induction asgT with
  | nil => intro fin _; rfl
  | cons p rest ih =>
    intro fin hsub
    cases p with
    | mk k ns =>
      rw [mergeAsg_cons]
      cases hk : alookup fin k with
      | none =>
        exact absurd hk (by
          have := hsub k (by simp)
          intro hh
          rw [hh] at this
          simp at this)
      | some lk =>
        rw [setdefaultExtend_found hk]
        have hsub' : ∀ k' ∈ rest.map Prod.fst,
            (alookup (setAt fin k (lk ++ ns)) k').isSome = true := by
          intro k' hk'
          by_cases hkk : k' = k
          · subst hkk
            rw [alookup_setAt_self hk]
            rfl
          · rw [alookup_setAt_ne fin hkk]
            exact hsub k' (List.mem_cons_of_mem _ hk')
        rw [ih hsub', setAt_map_fst]

theorem mergeAsg_lookup_none : ∀ {asgT fin : List (String × List String)} {d : String},
    (∀ k ∈ asgT.map Prod.fst, (alookup fin k).isSome = true) →
    alookup asgT d = none →
    alookup (mergeAsg fin asgT) d = alookup fin d := by
  intro asgT
  induction asgT with
  | nil => intro fin d _ _; rfl
  | cons p rest ih =>
    intro fin d hsub hd
    cases p with
    | mk k ns =>
      simp only [alookup] at hd
      by_cases hdk : d = k
      · rw [if_pos hdk] at hd
        exact Option.noConfusion hd
      · rw [if_neg hdk] at hd
        cases hk : alookup fin k with
        | none =>
          exact absurd hk (by
            have := hsub k (by simp)
            intro hh
            rw [hh] at this
            simp at this)
        | some lk =>
          rw [mergeAsg_cons, setdefaultExtend_found hk]
          have hsub' : ∀ k' ∈ rest.map Prod.fst,
              (alookup (setAt fin k (lk ++ ns)) k').isSome = true := by
            intro k' hk'
            by_cases hkk : k' = k
            · subst hkk
              rw [alookup_setAt_self hk]
              rfl
            · rw [alookup_setAt_ne fin hkk]
              exact hsub k' (List.mem_cons_of_mem _ hk')
          rw [ih hsub' hd]
          exact alookup_setAt_ne fin hdk (lk ++ ns)

theorem mergeAsg_lookup_some : ∀ {asgT fin : List (String × List String)} {d : String}
    {b l : List String},
    KeysNodup asgT →
    (∀ k ∈ asgT.map Prod.fst, (alookup fin k).isSome = true) →
    alookup asgT d = some b → alookup fin d = some l →
    alookup (mergeAsg fin asgT) d = some (l ++ b) := by
  intro asgT
  induction asgT with
  | nil => intro fin d b l _ _ hT _; simp [alookup] at hT
  | cons p rest ih =>
    intro fin d b l hnd hsub hT hfin
    cases p with
    | mk k ns =>
      have hkfin : (alookup fin k).isSome = true := hsub k (by simp)
      cases hk : alookup fin k with
      | none => rw [hk] at hkfin; simp at hkfin
      | some lk =>
        rw [mergeAsg_cons, setdefaultExtend_found hk]
        simp only [alookup] at hT
        have hsub' : ∀ k' ∈ rest.map Prod.fst,
            (alookup (setAt fin k (lk ++ ns)) k').isSome = true := by
          intro k' hk'
          by_cases hkk : k' = k
          · subst hkk
            rw [alookup_setAt_self hk]
            rfl
          · rw [alookup_setAt_ne fin hkk]
            exact hsub k' (List.mem_cons_of_mem _ hk')
        by_cases hdk : d = k
        · subst hdk
          rw [if_pos rfl] at hT
          have hbns : b = ns := (Option.some_inj.mp hT).symm
          subst hbns
          have hdrest : alookup rest d = none := by
            apply alookup_none_of_not_mem_keys
            intro q hq he
            have : d ∈ rest.map Prod.fst := by
              rw [← he]
              exact List.mem_map_of_mem Prod.fst hq
            have hnd2 := hnd
            unfold KeysNodup at hnd2
            simp only [List.map_cons, List.nodup_cons] at hnd2
            exact hnd2.1 this
          rw [mergeAsg_lookup_none hsub' hdrest]
          rw [alookup_setAt_self hk]
          have hlk : l = lk := Option.some_inj.mp (hfin.symm.trans hk)
          subst hlk
          rfl
        · rw [if_neg hdk] at hT
          have hnd' : KeysNodup rest := by
            have := hnd
            unfold KeysNodup at this ⊢
            simp only [List.map_cons, List.nodup_cons] at this
            exact this.2
          rw [ih hnd' hsub' hT (by rw [alookup_setAt_ne fin hdk]; exact hfin)]

/-- One step of the team fold preserves the final-map invariant. -/
theorem finInv_merge_step {m : List (String × EngineerData)} {ocd : List String}
    (hnd : ocd.Nodup) {done : List TeamData}
    {fin : List (String × List String)} {t : TeamData}
    {asgT : List (String × List String)}
    (hF : FinInv m ocd done fin)
    (hkeysT : asgT.map Prod.fst = ocd)
    (hndD : ∀ p ∈ asgT, p.2.Nodup)
    (hcap : ∀ p ∈ asgT, p.2.length ≤ effCap t p.1)
    (hmem : ∀ p ∈ asgT, ∀ n ∈ p.2, ∃ e, alookup m n = some e ∧ e.team = t.name)
    (hocc : ∀ n, occD ocd asgT n ≤ maxOf m n)
    (hadjT : ∀ n, isAvoid m n → adjFree ocd asgT n)
    (htnew : t.name ∉ done.map TeamData.name) :
    FinInv m ocd (done ++ [t]) (mergeAsg fin asgT) := by
  have hTnd : KeysNodup asgT := by
    unfold KeysNodup
    rw [hkeysT]
    exact hnd
  have hFnd : KeysNodup fin := by
    unfold KeysNodup
    rw [hF.keys]
    exact hnd
  have hsub : ∀ k ∈ asgT.map Prod.fst, (alookup fin k).isSome = true := by
    intro k hk
    apply alookup_isSome_of_fst_mem
    rw [hF.keys]
    rw [hkeysT] at hk
    exact hk
  have hkeys' : (mergeAsg fin asgT).map Prod.fst = ocd := by
    rw [mergeAsg_map_fst hsub, hF.keys]
  have hpoint : ∀ d ∈ ocd, ∃ l b, alookup fin d = some l ∧ alookup asgT d = some b ∧
      alookup (mergeAsg fin asgT) d = some (l ++ b) := by
    intro d hd
    have hfs : (alookup fin d).isSome = true := by
      apply alookup_isSome_of_fst_mem
      rw [hF.keys]
      exact hd
    have hts : (alookup asgT d).isSome = true := by
      apply alookup_isSome_of_fst_mem
      rw [hkeysT]
      exact hd
    cases hfl : alookup fin d with
    | none => rw [hfl] at hfs; simp at hfs
    | some l =>
      cases htl : alookup asgT d with
      | none => rw [htl] at hts; simp at hts
      | some b =>
        exact ⟨l, b, rfl, rfl, mergeAsg_lookup_some hTnd hsub htl hfl⟩
  have hmergeNd : KeysNodup (mergeAsg fin asgT) := by
    unfold KeysNodup
    rw [hkeys']
    exact hnd
  -- memberships of a day of the merged map
  have hsplitMem : ∀ p ∈ mergeAsg fin asgT, ∃ l b,
      alookup fin p.1 = some l ∧ alookup asgT p.1 = some b ∧ p.2 = l ++ b := by
    intro p hp
    have hp1 : p.1 ∈ ocd := by
      rw [← hkeys']
      exact List.mem_map_of_mem Prod.fst hp
    obtain ⟨l, b, hfl, htl, hml⟩ := hpoint p.1 hp1
    have := alookup_eq_of_mem_nodup hmergeNd hp
    rw [hml] at this
    exact ⟨l, b, hfl, htl, Option.some_inj.mp this.symm⟩
  -- a member of a `fin` day list cannot be on team t, and vice versa
  have hfinNotT : ∀ {d l n}, alookup fin d = some l → n ∈ l →
      ∃ e, alookup m n = some e ∧ e.team ∈ done.map TeamData.name ∧ e.team ≠ t.name := by
    intro d l n hdl hn
    obtain ⟨e, he, hteam⟩ := hF.members (d, l) (alookup_mem hdl) n hn
    exact ⟨e, he, hteam, fun hh => htnew (hh ▸ hteam)⟩
  have hasgT_T : ∀ {d b n}, alookup asgT d = some b → n ∈ b →
      ∃ e, alookup m n = some e ∧ e.team = t.name := by
    intro d b n hdb hn
    exact hmem (d, b) (alookup_mem hdb) n hn
  refine ⟨hkeys', ?_, ?_, ?_, ?_, ?_⟩
  · -- nodupDays
    intro p hp
    obtain ⟨l, b, hfl, htl, hpe⟩ := hsplitMem p hp
    rw [hpe]
    refine (hF.nodupDays (p.1, l) (alookup_mem hfl)).append
      (hndD (p.1, b) (alookup_mem htl)) ?_
    intro n hnl hnb
    obtain ⟨e, he, _, hne⟩ := hfinNotT hfl hnl
    obtain ⟨e', he', hte'⟩ := hasgT_T htl hnb
    have : e = e' := Option.some_inj.mp (he.symm.trans he')
    exact hne (this ▸ hte')
  · -- members
    intro p hp n hn
    obtain ⟨l, b, hfl, htl, hpe⟩ := hsplitMem p hp
    rw [hpe] at hn
    rcases List.mem_append.mp hn with hnl | hnb
    · obtain ⟨e, he, hteam, _⟩ := hfinNotT hfl hnl
      exact ⟨e, he, by simp only [List.map_append]; exact List.mem_append_left _ hteam⟩
    · obtain ⟨e, he, hteam⟩ := hasgT_T htl hnb
      refine ⟨e, he, ?_⟩
      simp [hteam]
  · -- occBound
    intro n
    cases hme : alookup m n with
    | none =>
      have : occD ocd (mergeAsg fin asgT) n = 0 := by
        unfold occD
        rw [List.filter_eq_nil_iff.mpr]
        · rfl
        · intro d hd
          obtain ⟨l, b, hfl, htl, hml⟩ := hpoint d hd
          unfold dayList
          rw [hml]
          simp only [Option.getD_some]
          intro hcont
          rcases List.mem_append.mp (contains_iff.mp hcont) with hnl | hnb
          · obtain ⟨e, he, _, _⟩ := hfinNotT hfl hnl
            rw [hme] at he
            exact Option.noConfusion he
          · obtain ⟨e, he, _⟩ := hasgT_T htl hnb
            rw [hme] at he
            exact Option.noConfusion he
      rw [this]
      exact Nat.zero_le _
    | some e =>
      by_cases hteam : e.team = t.name
      · have : occD ocd (mergeAsg fin asgT) n = occD ocd asgT n := by
          apply occD_congr
          intro d hd
          obtain ⟨l, b, hfl, htl, hml⟩ := hpoint d hd
          unfold dayList
          rw [hml, htl]
          simp only [Option.getD_some]
          constructor
          · intro hm2
            rcases List.mem_append.mp hm2 with hnl | hnb
            · obtain ⟨e', he', _, hne'⟩ := hfinNotT hfl hnl
              have : e = e' := Option.some_inj.mp (hme.symm.trans he')
              exact absurd hteam (this ▸ hne')
            · exact hnb
          · intro hm2
            exact List.mem_append_right _ hm2
        rw [this]
        exact hocc n
      · have : occD ocd (mergeAsg fin asgT) n = occD ocd fin n := by
          apply occD_congr
          intro d hd
          obtain ⟨l, b, hfl, htl, hml⟩ := hpoint d hd
          unfold dayList
          rw [hml, hfl]
          simp only [Option.getD_some]
          constructor
          · intro hm2
            rcases List.mem_append.mp hm2 with hnl | hnb
            · exact hnl
            · obtain ⟨e', he', hte'⟩ := hasgT_T htl hnb
              have : e = e' := Option.some_inj.mp (hme.symm.trans he')
              exact absurd (this ▸ hte') hteam
          · intro hm2
            exact List.mem_append_left _ hm2
        rw [this]
        exact hF.occBound n
  · -- adj
    intro n hav j d1 d2 hg1 hg2 hboth
    obtain ⟨e, he, hpref⟩ := hav
    have hd1 : d1 ∈ ocd := mem_of_get?_eq_some hg1
    have hd2 : d2 ∈ ocd := mem_of_get?_eq_some hg2
    obtain ⟨l1, b1, hfl1, htl1, hml1⟩ := hpoint d1 hd1
    obtain ⟨l2, b2, hfl2, htl2, hml2⟩ := hpoint d2 hd2
    have hm1 : n ∈ l1 ++ b1 := by
      have := hboth.1
      unfold dayList at this
      rw [hml1] at this
      exact this
    have hm2 : n ∈ l2 ++ b2 := by
      have := hboth.2
      unfold dayList at this
      rw [hml2] at this
      exact this
    by_cases hteam : e.team = t.name
    · -- all of n's assignments sit in asgT
      have hb1 : n ∈ b1 := by
        rcases List.mem_append.mp hm1 with hnl | hnb
        · obtain ⟨e', he', _, hne'⟩ := hfinNotT hfl1 hnl
          have : e = e' := Option.some_inj.mp (he.symm.trans he')
          exact absurd hteam (this ▸ hne')
        · exact hnb
      have hb2 : n ∈ b2 := by
        rcases List.mem_append.mp hm2 with hnl | hnb
        · obtain ⟨e', he', _, hne'⟩ := hfinNotT hfl2 hnl
          have : e = e' := Option.some_inj.mp (he.symm.trans he')
          exact absurd hteam (this ▸ hne')
        · exact hnb
      refine hadjT n ⟨e, he, hpref⟩ j d1 d2 hg1 hg2 ⟨?_, ?_⟩
      · unfold dayList
        rw [htl1]
        exact hb1
      · unfold dayList
        rw [htl2]
        exact hb2
    · -- all of n's assignments sit in fin
      have hl1 : n ∈ l1 := by
        rcases List.mem_append.mp hm1 with hnl | hnb
        · exact hnl
        · obtain ⟨e', he', hte'⟩ := hasgT_T htl1 hnb
          have : e = e' := Option.some_inj.mp (he.symm.trans he')
          exact absurd (this ▸ hte') hteam
      have hl2 : n ∈ l2 := by
        rcases List.mem_append.mp hm2 with hnl | hnb
        · exact hnl
        · obtain ⟨e', he', hte'⟩ := hasgT_T htl2 hnb
          have : e = e' := Option.some_inj.mp (he.symm.trans he')
          exact absurd (this ▸ hte') hteam
      refine hF.adj n ⟨e, he, hpref⟩ j d1 d2 hg1 hg2 ⟨?_, ?_⟩
      · unfold dayList
        rw [hfl1]
        exact hl1
      · unfold dayList
        rw [hfl2]
        exact hl2
  · -- teamFilter
    intro t' ht' p hp
    obtain ⟨l, b, hfl, htl, hpe⟩ := hsplitMem p hp
    rw [hpe, List.filter_append]
    rcases List.mem_append.mp ht' with htdone | htt
    · have hne : t'.name ≠ t.name := by
        intro hh
        exact htnew (hh ▸ List.mem_map_of_mem TeamData.name htdone)
      have hfb : b.filter (fun n => decide (teamOf m n = some t'.name)) = [] := by
        rw [List.filter_eq_nil_iff]
        intro n hn
        obtain ⟨e, he, hteam⟩ := hasgT_T htl hn
        simp only [decide_eq_true_eq]
        intro hq
        unfold teamOf at hq
        rw [he] at hq
        simp only [Option.map_some'] at hq
        exact hne ((Option.some_inj.mp hq).symm.trans hteam)
      rw [hfb, List.append_nil]
      exact hF.teamFilter t' htdone (p.1, l) (alookup_mem hfl)
    · have htt' : t' = t := List.mem_singleton.mp htt
      subst htt'
      have hfl0 : l.filter (fun n => decide (teamOf m n = some t'.name)) = [] := by
        rw [List.filter_eq_nil_iff]
        intro n hn
        obtain ⟨e, he, _, hne⟩ := hfinNotT hfl hn
        simp only [decide_eq_true_eq]
        intro hq
        unfold teamOf at hq
        rw [he] at hq
        simp only [Option.map_some'] at hq
        exact hne (Option.some_inj.mp hq)
      rw [hfl0, List.nil_append]
      calc (b.filter (fun n => decide (teamOf m n = some t'.name))).length
        ≤ b.length := List.length_filter_le _ b
        _ ≤ effCap t' p.1 := hcap (p.1, b) (alookup_mem htl)

/-! ### Well-formedness of the working engineer map -/

theorem dictInsert_keysNodup {α : Type} {m : List (String × α)} (hnd : KeysNodup m)
    (k : String) (v : α) : KeysNodup (dictInsert m k v) := by
  unfold dictInsert
  by_cases hs : (alookup m k).isSome = true
  · rw [if_pos hs]
    unfold KeysNodup
    rw [setAt_map_fst]
    exact hnd
  · rw [if_neg hs]
    unfold KeysNodup
    rw [List.map_append]
    have hkn : k ∉ m.map Prod.fst := by
      intro hmem
      exact hs (alookup_isSome_of_fst_mem hmem)
    refine hnd.append (List.nodup_singleton k) ?_
    intro a ha hb
    rw [List.mem_singleton.mp hb] at ha
    exact hkn ha

theorem setAt_namesOk {m : List (String × EngineerData)} (hwf : MapNamesOk m)
    {k : String} {v : EngineerData} (hvk : v.name = k) :
    MapNamesOk (setAt m k v) := by
  intro p hp
  rcases mem_setAt hp with ⟨_, hm⟩ | ⟨hk, hv, _⟩
  · exact hwf p hm
  · rw [hv, hk, hvk]

theorem dictInsert_namesOk {m : List (String × EngineerData)} (hwf : MapNamesOk m)
    (v : EngineerData) : MapNamesOk (dictInsert m v.name v) := by
  unfold dictInsert
  by_cases hs : (alookup m v.name).isSome = true
  · rw [if_pos hs]
    exact setAt_namesOk hwf rfl
  · rw [if_neg hs]
    intro p hp
    rcases List.mem_append.mp hp with hm | hm
    · exact hwf p hm
    · rw [List.mem_singleton.mp hm]

theorem buildEngMap_wf (es : List EngineerData) :
    KeysNodup (buildEngMap es) ∧ MapNamesOk (buildEngMap es) := by
  have hgen : ∀ (acc : List (String × EngineerData)), KeysNodup acc →
      MapNamesOk acc →
      KeysNodup (es.foldl (fun m e => dictInsert m e.name e) acc) ∧
      MapNamesOk (es.foldl (fun m e => dictInsert m e.name e) acc) := by
    induction es with
    | nil => intro acc h1 h2; exact ⟨h1, h2⟩
    | cons e rest ih =>
      intro acc h1 h2
      exact ih (dictInsert acc e.name e) (dictInsert_keysNodup h1 e.name e)
        (dictInsert_namesOk h2 e)
  exact hgen [] (by unfold KeysNodup; exact List.nodup_nil) (by intro p hp; simp at hp)

theorem injectTemp_none_eq (month_str : String) (m : List (String × EngineerData)) :
    injectTemp month_str m none = m := rfl

theorem injectTemp_miss_eq {m : List (String × EngineerData)} {tp : TempPrefs}
    (hlk : alookup m tp.engineer = none) (month_str : String) :
    injectTemp month_str m (some tp) = m := by
  show (match alookup m tp.engineer with
    | none => m
    | some e =>
      setAt m tp.engineer
        { e with preferences := dictInsert e.preferences month_str tp.preferences,
                 maxShifts := tp.maxShifts }) = m
  rw [hlk]

theorem injectTemp_hit_eq {m : List (String × EngineerData)} {tp : TempPrefs}
    {e : EngineerData} (hlk : alookup m tp.engineer = some e) (month_str : String) :
    injectTemp month_str m (some tp)
      = setAt m tp.engineer
          { e with preferences := dictInsert e.preferences month_str tp.preferences,
                   maxShifts := tp.maxShifts } := by
  show (match alookup m tp.engineer with
    | none => m
    | some e =>
      setAt m tp.engineer
        { e with preferences := dictInsert e.preferences month_str tp.preferences,
                 maxShifts := tp.maxShifts }) = _
  rw [hlk]

theorem injectTemp_wf {m : List (String × EngineerData)} (hnd : KeysNodup m)
    (hwf : MapNamesOk m) (month_str : String) (tp : Option TempPrefs) :
    KeysNodup (injectTemp month_str m tp) ∧ MapNamesOk (injectTemp month_str m tp) := by
  cases tp with
  | none => exact ⟨hnd, hwf⟩
  | some tp =>
    cases hlk : alookup m tp.engineer with
    | none =>
      rw [injectTemp_miss_eq hlk]
      exact ⟨hnd, hwf⟩
    | some e =>
      have hename : e.name = tp.engineer := hwf (tp.engineer, e) (alookup_mem hlk)
      rw [injectTemp_hit_eq hlk]
      constructor
      · unfold KeysNodup
        rw [setAt_map_fst]
        exact hnd
      · exact setAt_namesOk hwf hename

theorem simEngMap_wf (month_str : String) (es : List EngineerData)
    (temp : Option TempPrefs) :
    KeysNodup (simEngMap month_str es temp) ∧ MapNamesOk (simEngMap month_str es temp) := by
  obtain ⟨h1, h2⟩ := buildEngMap_wf es
  exact injectTemp_wf h1 h2 month_str temp

/-! ### The whole-run invariant -/

theorem finInv_init (m : List (String × EngineerData)) {ocd : List String} :
    FinInv m ocd [] (ocd.map (fun d => (d, ([] : List String)))) := by
  refine ⟨map_fst_pair_nil ocd, ?_, ?_, ?_, ?_, ?_⟩
  · intro p hp
    obtain ⟨d, _, hd⟩ := List.mem_map.mp hp
    rw [← hd]
    exact List.nodup_nil
  · intro p hp n hn
    obtain ⟨d, _, hd⟩ := List.mem_map.mp hp
    rw [← hd] at hn
    simp at hn
  · intro n
    rw [occD_const_nil]
    exact Nat.zero_le _
  · intro n _ j d1 d2 _ _ hboth
    rw [dayList_const_nil] at hboth
    simp at hboth
  · intro t' ht'
    simp at ht'

theorem mergeTeams_inv {month_str : String} {ocd : List String}
    {m : List (String × EngineerData)} (hnd : ocd.Nodup) (hknd : KeysNodup m)
    (hwf : MapNamesOk m) :
    ∀ (ts done : List TeamData) (fin final : List (String × List String)),
      FinInv m ocd done fin →
      ((done.map TeamData.name) ++ (ts.map TeamData.name)).Nodup →
      mergeTeams month_str ocd m ts fin = .ok final →
      FinInv m ocd (done ++ ts) final := by
  intro ts
  induction ts with
  | nil =>
    intro done fin final hF _ h
    simp only [mergeTeams, Except.ok.injEq] at h
    rw [← h, List.append_nil]
    exact hF
  | cons t ts ih =>
    intro done fin final hF hnd2 h
    have htnew : t.name ∉ done.map TeamData.name := by
      simp only [List.map_cons] at hnd2
      have hd := (List.nodup_append.mp hnd2).2.2
      intro hmem
      exact hd hmem (List.mem_cons_self _ _)
    have hnd2' : (((done ++ [t]).map TeamData.name) ++ (ts.map TeamData.name)).Nodup := by
      simp only [List.map_append, List.map_cons, List.map_nil] at hnd2 ⊢
      rw [List.append_assoc]
      simpa using hnd2
    have hgoal : done ++ t :: ts = (done ++ [t]) ++ ts := by
      rw [List.append_assoc]
      rfl
    simp only [mergeTeams] at h
    split at h
    · exact absurd h (by simp)
    · -- processTeam returned none: team skipped
      rename_i hproc
      have hF' : FinInv m ocd (done ++ [t]) fin := by
        refine ⟨hF.keys, hF.nodupDays, ?_, hF.occBound, hF.adj, ?_⟩
        · intro p hp n hn
          obtain ⟨e, he, hteam⟩ := hF.members p hp n hn
          refine ⟨e, he, ?_⟩
          simp only [List.map_append]
          exact List.mem_append_left _ hteam
        · intro t' ht' p hp
          rcases List.mem_append.mp ht' with htdone | htt
          · exact hF.teamFilter t' htdone p hp
          · have htt' : t' = t := List.mem_singleton.mp htt
            subst htt'
            have hfl0 : p.2.filter (fun n => decide (teamOf m n = some t'.name))
                = [] := by
              rw [List.filter_eq_nil_iff]
              intro n hn
              obtain ⟨e, he, hteam⟩ := hF.members p hp n hn
              simp only [decide_eq_true_eq]
              intro hq
              unfold teamOf at hq
              rw [he] at hq
              simp only [Option.map_some'] at hq
              exact htnew ((Option.some_inj.mp hq) ▸ hteam)
            rw [hfl0]
            exact Nat.zero_le _
      rw [hgoal]
      exact ih (done ++ [t]) fin final hF' hnd2' h
    · -- processTeam returned a team month
      rename_i asgT hproc
      obtain ⟨hkeysT, hndD, hcap, hmem, hocc, hadjT⟩ :=
        processTeam_spec hnd hknd hwf hproc
      have hF' : FinInv m ocd (done ++ [t]) (mergeAsg fin asgT) :=
        finInv_merge_step hnd hF hkeysT hndD hcap hmem hocc hadjT htnew
      rw [hgoal]
      exact ih (done ++ [t]) (mergeAsg fin asgT) final hF' hnd2' h

/-- A completed simulation run satisfies the final-map invariant. -/
theorem sim_ok_finInv {month_str : String} {teams_data : List TeamData}
    {engineers_data : List EngineerData} {holidays_data : List HolidayInput}
    {temp : Option TempPrefs} {final : List (String × List String)}
    (hnodup : (teams_data.map TeamData.name).Nodup)
    (hok : run_schedule_simulation month_str teams_data engineers_data
      holidays_data temp = .ok final) :
    ∃ year month ocd, parseMonth month_str = some (year, month)
      ∧ get_on_call_days_pure year month holidays_data = .ok ocd
      ∧ ocd.Nodup
      ∧ FinInv (simEngMap month_str engineers_data temp) ocd teams_data final := by
  unfold run_schedule_simulation at hok
  split at hok
  · exact absurd hok (by simp)
  · rename_i year month hparse
    split at hok
    · exact absurd hok (by simp)
    · rename_i ocd hocd
      have hnd : ocd.Nodup := get_on_call_days_nodup hocd
      obtain ⟨hknd, hwf⟩ := simEngMap_wf month_str engineers_data temp
      refine ⟨year, month, ocd, hparse, hocd, hnd, ?_⟩
      have hres := mergeTeams_inv hnd hknd hwf teams_data []
        (ocd.map (fun d => (d, ([] : List String)))) final
        (finInv_init _) (by simpa using hnodup) hok
      simpa using hres

theorem alookup_cons {α : Type} (p : String × α) (rest : List (String × α))
    (d : String) :
    alookup (p :: rest) d = if d = p.1 then some p.2 else alookup rest d := rfl

theorem countDays_eq_occD : ∀ {fin : List (String × List String)}, KeysNodup fin →
    ∀ n, (fin.filter (fun p => p.2.contains n)).length
      = occD (fin.map Prod.fst) fin n := by
  intro fin
  induction fin with
  | nil => intro _ n; rfl
  | cons p rest ih =>
    intro hnd n
    have hp1 : p.1 ∉ rest.map Prod.fst := by
      have := hnd
      unfold KeysNodup at this
      simp only [List.map_cons, List.nodup_cons] at this
      exact this.1
    have hnd' : KeysNodup rest := by
      have := hnd
      unfold KeysNodup at this ⊢
      simp only [List.map_cons, List.nodup_cons] at this
      exact this.2
    have hhead : dayList (p :: rest) p.1 = p.2 := by
      unfold dayList
      rw [alookup_cons, if_pos rfl]
      rfl
    have htail : (rest.map Prod.fst).filter
          (fun d => (dayList (p :: rest) d).contains n)
        = (rest.map Prod.fst).filter (fun d => (dayList rest d).contains n) := by
      apply List.filter_congr
      intro d hd
      have hdp : d ≠ p.1 := fun he => hp1 (he ▸ hd)
      have hdl : dayList (p :: rest) d = dayList rest d := by
        unfold dayList
        rw [alookup_cons, if_neg hdp]
      rw [hdl]
    unfold occD
    simp only [List.map_cons, List.filter_cons, hhead, htail]
    cases hc : p.2.contains n with
    | false =>
      simp only [hc, if_false, Bool.false_eq_true]
      exact ih hnd' n
    | true =>
      simp only [hc, if_true]
      simp only [List.length_cons]
      rw [ih hnd' n]
      unfold occD
      rfl

/-- Claim C2: in every completed simulation run (with distinct team names, as
the data model guarantees), no engineer is assigned more dates than the
`maxShifts` recorded for them in the working engineer map — the stored cap,
or the hypothetical cap when the what-if injection overrode it. -/
theorem sim_respects_maxShifts (month_str : String) (teams_data : List TeamData)
    (engineers_data : List EngineerData) (holidays_data : List HolidayInput)
    (temp : Option TempPrefs) (final : List (String × List String))
    (hteams : (teams_data.map TeamData.name).Nodup)
    (hok : run_schedule_simulation month_str teams_data engineers_data
      holidays_data temp = .ok final) :
    ∀ n, (final.filter (fun p => p.2.contains n)).length
      ≤ maxOf (simEngMap month_str engineers_data temp) n := by
  obtain ⟨y, mo, ocd, _, _, hnd, hF⟩ := sim_ok_finInv hteams hok
  intro n
  have hknd : KeysNodup final := by
    unfold KeysNodup
    rw [hF.keys]
    exact hnd
  calc (final.filter (fun p => p.2.contains n)).length
      = occD (final.map Prod.fst) final n := countDays_eq_occD hknd n
    _ = occD ocd final n := by rw [hF.keys]
    _ ≤ maxOf (simEngMap month_str engineers_data temp) n := hF.occBound n

/-- Claim C3: in every completed simulation run (with distinct team names),
for every team and every day of the final map, the number of that team's
engineers assigned to the day never exceeds the day's effective capacity —
the team's `shift_overrides` entry if present, else its `shifts_per_day`. -/
theorem sim_respects_capacity (month_str : String) (teams_data : List TeamData)
    (engineers_data : List EngineerData) (holidays_data : List HolidayInput)
    (temp : Option TempPrefs) (final : List (String × List String))
    (hteams : (teams_data.map TeamData.name).Nodup)
    (hok : run_schedule_simulation month_str teams_data engineers_data
      holidays_data temp = .ok final) :
    ∀ t ∈ teams_data, ∀ day l, alookup final day = some l →
      (l.filter (fun n =>
        decide (teamOf (simEngMap month_str engineers_data temp) n
          = some t.name))).length ≤ effCap t day := by
  obtain ⟨y, mo, ocd, _, _, hnd, hF⟩ := sim_ok_finInv hteams hok
  intro t ht day l hl
  exact hF.teamFilter t ht (day, l) (alookup_mem hl)

/-- Claim C10: in every completed simulation run (with distinct team names),
no engineer appears twice in the same day's assignment list. -/
theorem sim_day_lists_nodup (month_str : String) (teams_data : List TeamData)
    (engineers_data : List EngineerData) (holidays_data : List HolidayInput)
    (temp : Option TempPrefs) (final : List (String × List String))
    (hteams : (teams_data.map TeamData.name).Nodup)
    (hok : run_schedule_simulation month_str teams_data engineers_data
      holidays_data temp = .ok final) :
    ∀ day l, alookup final day = some l → l.Nodup := by
  obtain ⟨y, mo, ocd, _, _, hnd, hF⟩ := sim_ok_finInv hteams hok
  intro day l hl
  exact hF.nodupDays (day, l) (alookup_mem hl)

/-- Claim C4 (amended): in every completed simulation run (distinct team
names), an engineer whose `consecutive_pref` is the literal `avoid` — the
value the simulator's guard actually checks — is never assigned to two
adjacent entries of the final map, whose key order is the ordered on-call-day
list. -/
theorem sim_avoid_no_adjacent (month_str : String) (teams_data : List TeamData)
    (engineers_data : List EngineerData) (holidays_data : List HolidayInput)
    (temp : Option TempPrefs) (final : List (String × List String))
    (hteams : (teams_data.map TeamData.name).Nodup)
    (hok : run_schedule_simulation month_str teams_data engineers_data
      holidays_data temp = .ok final)
    (n : String) (e : EngineerData)
    (he : alookup (simEngMap month_str engineers_data temp) n = some e)
    (hpref : e.consecutive_pref = "avoid") :
    ∀ i p q, final.get? i = some p → final.get? (i + 1) = some q →
      ¬(n ∈ p.2 ∧ n ∈ q.2) := by
  obtain ⟨y, mo, ocd, _, _, hnd, hF⟩ := sim_ok_finInv hteams hok
  intro i p q hp hq hboth
  have hknd : KeysNodup final := by
    unfold KeysNodup
    rw [hF.keys]
    exact hnd
  have hocd_p : ocd.get? i = some p.1 := by
    rw [← hF.keys, List.get?_map, hp]
    rfl
  have hocd_q : ocd.get? (i + 1) = some q.1 := by
    rw [← hF.keys, List.get?_map, hq]
    rfl
  have hpl : dayList final p.1 = p.2 := by
    unfold dayList
    rw [alookup_eq_of_mem_nodup hknd (List.get?_mem hp)]
    rfl
  have hql : dayList final q.1 = q.2 := by
    unfold dayList
    rw [alookup_eq_of_mem_nodup hknd (List.get?_mem hq)]
    rfl
  exact hF.adj n ⟨e, he, hpref⟩ i p.1 q.1 hocd_p hocd_q
    ⟨hpl ▸ hboth.1, hql ▸ hboth.2⟩

/-- Witness for claim C2 at a concrete input. -/
theorem sim_respects_maxShifts_witness :
    (([wteam].map TeamData.name).Nodup)
  ∧ run_schedule_simulation "2025-10" [wteam] [wengA, wengB] [] none = .ok wfinal
  ∧ (∀ n, (wfinal.filter (fun p => p.2.contains n)).length
      ≤ maxOf (simEngMap "2025-10" [wengA, wengB] none) n) :=
  ⟨by decide, rfl,
    sim_respects_maxShifts "2025-10" [wteam] [wengA, wengB] [] none wfinal
      (by decide) rfl⟩

/-- Witness for claim C3 at a concrete input. -/
theorem sim_respects_capacity_witness :
    (([wteamC3].map TeamData.name).Nodup)
  ∧ run_schedule_simulation "2025-10" [wteamC3] [wengA, wengB] [] none
      = .ok wfinalC3
  ∧ (∀ t ∈ [wteamC3], ∀ day l, alookup wfinalC3 day = some l →
      (l.filter (fun n =>
        decide (teamOf (simEngMap "2025-10" [wengA, wengB] none) n
          = some t.name))).length ≤ effCap t day) :=
  ⟨by decide, rfl,
    sim_respects_capacity "2025-10" [wteamC3] [wengA, wengB] [] none wfinalC3
      (by decide) rfl⟩

/-- Witness for claim C10 at a concrete input: `EngB` lists the same day
twice with cap 2 and still appears only once in that day's list. -/
theorem sim_day_lists_nodup_witness :
    (([wteamC10].map TeamData.name).Nodup)
  ∧ run_schedule_simulation "2025-10" [wteamC10] [wengA, wengC10] [] none
      = .ok wfinalC10
  ∧ (∀ day l, alookup wfinalC10 day = some l → l.Nodup) :=
  ⟨by decide, rfl,
    sim_day_lists_nodup "2025-10" [wteamC10] [wengA, wengC10] [] none wfinalC10
      (by decide) rfl⟩

/-- Witness for the amended claim C4 at a concrete input: `Z` asks for the
two adjacent days `2025-10-04`/`2025-10-05` but, with the `avoid` flag, is
assigned only the first. -/
theorem sim_avoid_no_adjacent_witness :
    (([wteamZ].map TeamData.name).Nodup)
  ∧ run_schedule_simulation "2025-10" [wteamZ] [wengZ] [] none = .ok wfinalZ
  ∧ alookup (simEngMap "2025-10" [wengZ] none) "Z" = some wengZ
  ∧ wengZ.consecutive_pref = "avoid"
  ∧ (∀ i p q, wfinalZ.get? i = some p → wfinalZ.get? (i + 1) = some q →
      ¬("Z" ∈ p.2 ∧ "Z" ∈ q.2)) :=
  ⟨by decide, rfl, rfl, rfl,
    sim_avoid_no_adjacent "2025-10" [wteamZ] [wengZ] [] none wfinalZ
      (by decide) rfl "Z" wengZ rfl rfl⟩

/-! ### The rotation step as a cyclic shift (claim C8) -/

theorem rot1_eq_rotate {α : Type} (l : List α) : rot1 l = l.rotate 1 := by
  cases l with
  | nil => rfl
  | cons x xs =>
    show xs ++ [x] = (x :: xs).rotate 1
    rw [List.rotate_cons_succ, List.rotate_zero]

theorem rotStep_eq (gs : List (List String)) :
    rotStep gs = (gs.rotate 1).map (fun g => g.rotate 1) := by
  cases gs with
  | nil => rfl
  | cons g rest =>
    show (rot1 (g :: rest)).map rot1 = _
    rw [rot1_eq_rotate]
    apply List.map_congr_left
    intro a _
    exact rot1_eq_rotate a

theorem rotStep_iterate (k : Nat) (gs : List (List String)) :
    rotStep^[k] gs = (gs.rotate k).map (fun g => g.rotate k) := by
  induction k with
  | zero =>
    simp [List.rotate_zero]
  | succ n ih =>
    rw [Function.iterate_succ_apply', ih, rotStep_eq, ← List.map_rotate,
      List.rotate_rotate, List.map_map]
    apply List.map_congr_left
    intro a _
    show (a.rotate n).rotate 1 = a.rotate (n + 1)
    rw [List.rotate_rotate]

theorem rotStep_length (gs : List (List String)) :
    (rotStep gs).length = gs.length := by
  rw [rotStep_eq, List.length_map, List.length_rotate]

theorem rotStep_iterate_length (k : Nat) (gs : List (List String)) :
    (rotStep^[k] gs).length = gs.length := by
  rw [rotStep_iterate, List.length_map, List.length_rotate]

theorem mem_of_mem_rot1 {α : Type} {l : List α} {x : α} (h : x ∈ rot1 l) : x ∈ l := by
  cases l with
  | nil => simp [rot1] at h
  | cons a as =>
    rcases List.mem_append.mp h with h1 | h1
    · exact List.mem_cons_of_mem a h1
    · rw [List.mem_singleton.mp h1]
      exact List.mem_cons_self a as

theorem groupsOk_rotStep {m : List (String × EngineerRec)} {tid : Nat}
    {gs : List (List String)} (h : GroupsOk m tid gs) :
    GroupsOk m tid (rotStep gs) := by
  intro g hg n hn
  cases gs with
  | nil => simp [rotStep] at hg
  | cons g0 rest =>
    have hg' : g ∈ (rot1 (g0 :: rest)).map rot1 := hg
    obtain ⟨g1, hg1, hmap⟩ := List.mem_map.mp hg'
    have hg1m : g1 ∈ g0 :: rest := mem_of_mem_rot1 hg1
    rw [← hmap] at hn
    exact h g1 hg1m n (mem_of_mem_rot1 hn)

theorem groupsOk_iterate {m : List (String × EngineerRec)} {tid : Nat}
    {gs : List (List String)} (h : GroupsOk m tid gs) (k : Nat) :
    GroupsOk m tid (rotStep^[k] gs) := by
  induction k with
  | zero => exact h
  | succ n ih =>
    rw [Function.iterate_succ_apply']
    exact groupsOk_rotStep ih

theorem filterTeamRec_eq_self {m : List (String × EngineerRec)} {tid : Nat}
    {gs : List (List String)} (h : GroupsOk m tid gs) :
    filterTeamRec m tid gs = gs := by
  unfold filterTeamRec
  have : ∀ g ∈ gs, g.filter (fun n =>
      match alookup m n with
      | some e => e.team_id == tid
      | none => false) = g := by
    intro g hg
    apply List.filter_eq_self.mpr
    intro n hn
    exact h g hg n hn
  calc gs.map (fun g => g.filter (fun n =>
      match alookup m n with
      | some e => e.team_id == tid
      | none => false))
      = gs.map id := List.map_congr_left this
    _ = gs := List.map_id gs

theorem strMax_mem : ∀ {l : List String} {r : String}, strMax l = some r → r ∈ l := by
  have hgen : ∀ (l : List String) (acc : Option String) (r : String),
      l.foldl (fun acc s =>
        match acc with
        | none => some s
        | some t => if strLt t s then some s else some t) acc = some r →
      acc = some r ∨ r ∈ l := by
    intro l
    induction l with
    | nil => intro acc r h; exact Or.inl h
    | cons a as ih =>
      intro acc r h
      rcases ih _ r h with h1 | h1
      · cases acc with
        | none =>
          simp only at h1
          have har : a = r := Option.some_inj.mp h1
          exact Or.inr (har ▸ List.mem_cons_self a as)
        | some t =>
          simp only at h1
          by_cases hlt : strLt t a = true
          · rw [if_pos hlt] at h1
            have har : a = r := Option.some_inj.mp h1
            exact Or.inr (har ▸ List.mem_cons_self a as)
          · rw [if_neg hlt] at h1
            exact Or.inl h1
      · exact Or.inr (List.mem_cons_of_mem a h1)
  intro l r h
  rcases hgen l none r h with h1 | h1
  · exact Option.noConfusion h1
  · exact h1

theorem strMax_last {l' : List String} {x : String}
    (h : ∀ y ∈ l', strLt y x = true) : strMax (l' ++ [x]) = some x := by
  unfold strMax
  rw [List.foldl_append]
  cases hacc : strMax l' with
  | none =>
    unfold strMax at hacc
    rw [hacc]
    rfl
  | some t =>
    unfold strMax at hacc
    rw [hacc]
    have ht : t ∈ l' := strMax_mem hacc
    show (if strLt t x then some x else some t) = some x
    rw [if_pos (h t ht)]

theorem chain'_strLt_all : ∀ {as : List String} {a : String},
    List.Chain' (fun x y => strLt x y = true) (a :: as) →
    ∀ b ∈ as, strLt a b = true := by
  intro as
  induction as with
  | nil => intro a _ b hb; simp at hb
  | cons c rest ih =>
    intro a h b hb
    have hac : strLt a c = true := (List.chain'_cons.mp h).1
    rcases List.mem_cons.mp hb with he | hr
    · rw [he]
      exact hac
    · exact strLt_trans hac (ih (List.chain'_cons.mp h).2 b hr)

theorem chain'_strLt_pairwise : ∀ {l : List String},
    List.Chain' (fun x y => strLt x y = true) l →
    List.Pairwise (fun x y => strLt x y = true) l := by
  intro l
  induction l with
  | nil => intro _; exact List.Pairwise.nil
  | cons a as ih =>
    intro h
    exact List.Pairwise.cons (chain'_strLt_all h) (ih h.tail)

theorem dictInsert_append {α : Type} {mp : List (String × α)} {k : String}
    (h : alookup mp k = none) (v : α) : dictInsert mp k v = mp ++ [(k, v)] := by
  unfold dictInsert
  rw [h]
  simp

theorem pickLatest_nil (mnext : String) : pickLatest [] mnext = none := rfl

theorem pickLatest_last {mpInit : List (String × List (List String))}
    {lk mnext : String} {lv : List (List String)}
    (hinit : ∀ y ∈ mpInit.map Prod.fst, strLt y lk = true)
    (hall : ∀ y ∈ (mpInit ++ [(lk, lv)]).map Prod.fst, strLt y mnext = true) :
    pickLatest (mpInit ++ [(lk, lv)]) mnext = some lv := by
  unfold pickLatest
  rw [List.filter_eq_self.mpr hall]
  have hmax : strMax ((mpInit ++ [(lk, lv)]).map Prod.fst) = some lk := by
    rw [List.map_append]
    exact strMax_last hinit
  rw [hmax]
  have hnone : alookup mpInit lk = none := by
    apply alookup_none_of_not_mem_keys
    intro p hp
    exact strLt_ne (hinit p.1 (List.mem_map_of_mem Prod.fst hp))
  show alookup (mpInit ++ [(lk, lv)]) lk = some lv
  rw [alookup_append_right hnone]
  simp [alookup]

theorem orBase_none {bg : List (List String)} (h : bg.isEmpty = false) :
    orBase none bg = bg := by
  show (if bg.isEmpty then [[]] else bg) = bg
  rw [h]
  simp

theorem orBase_some {v bg : List (List String)} (h : v.isEmpty = false) :
    orBase (some v) bg = v := by
  show (if v.isEmpty then (if bg.isEmpty then [[]] else bg) else v) = v
  rw [h]
  simp

theorem isEmpty_false_of_ne_nil {α : Type} {l : List α} (h : l ≠ []) :
    l.isEmpty = false := by
  cases l with
  | nil => exact absurd rfl h
  | cons x xs => rfl

theorem calc_chain_step {m : List (String × EngineerRec)} {tid : Nat}
    {bg : List (List String)} (hbg : bg ≠ []) (hgo : GroupsOk m tid bg)
    {t : TeamRec} (hid : t.id = tid) (hbgt : t.baseGroups = bg)
    {c : Nat} {m0 : String} (hstate : ChainState bg t c)
    (hlt : ∀ y ∈ t.monthlyPriorities.map Prod.fst, strLt y m0 = true) :
    (_calculate_monthly_priorities_and_save t m m0).1
      = { t with monthlyPriorities :=
            t.monthlyPriorities ++ [(m0, rotStep^[c + 1] bg)] } := by
  have hnone : alookup t.monthlyPriorities m0 = none := by
    apply alookup_none_of_not_mem_keys
    intro p hp
    exact strLt_ne (hlt p.1 (List.mem_map_of_mem Prod.fst hp))
  have hmiss : missRotated t m m0 = rotStep^[c + 1] bg := by
    unfold missRotated
    rcases hstate with ⟨hmp, hc⟩ | ⟨mpInit, lk, hmp, hinit⟩
    · rw [hmp, hc, pickLatest_nil, hbgt, orBase_none (isEmpty_false_of_ne_nil hbg),
        hid, filterTeamRec_eq_self hgo, Nat.zero_add, Function.iterate_one]
    · have hall : ∀ y ∈ (mpInit ++ [(lk, rotStep^[c] bg)]).map Prod.fst,
          strLt y m0 = true := by
        intro y hy
        apply hlt
        rw [hmp]
        exact hy
      have hlen : (rotStep^[c] bg).isEmpty = false := by
        apply isEmpty_false_of_ne_nil
        intro hr
        have h1 : (rotStep^[c] bg).length = bg.length := rotStep_iterate_length c bg
        rw [hr] at h1
        exact hbg (List.length_eq_zero.mp h1.symm)
      rw [hmp, pickLatest_last hinit hall, hbgt, orBase_some hlen, hid,
        filterTeamRec_eq_self (groupsOk_iterate hgo c),
        ← Function.iterate_succ_apply' rotStep c bg]
  rw [calc_of_lookup_none hnone, hmiss, dictInsert_append hnone]

theorem resolveChain_cons (t : TeamRec) (m : List (String × EngineerRec))
    (m0 : String) (rest : List String) :
    resolveChain t m (m0 :: rest)
      = resolveChain (_calculate_monthly_priorities_and_save t m m0).1 m rest := rfl

theorem resolveChain_lookup {m : List (String × EngineerRec)} {tid : Nat}
    {bg : List (List String)} (hbg : bg ≠ []) (hgo : GroupsOk m tid bg) :
    ∀ (ms : List String) (t : TeamRec) (c : Nat),
      t.id = tid → t.baseGroups = bg → ChainState bg t c →
      List.Chain' (fun a b => strLt a b = true)
        (t.monthlyPriorities.map Prod.fst ++ ms) →
      ∀ mL, ms.getLast? = some mL →
      alookup (resolveChain t m ms).monthlyPriorities mL
        = some (rotStep^[c + ms.length] bg) := by
  intro ms
  induction ms with
  | nil =>
    intro t c _ _ _ _ mL hmL
    simp at hmL
  | cons m0 rest ih =>
    intro t c hid hbgt hstate hchain mL hmL
    have hlt : ∀ y ∈ t.monthlyPriorities.map Prod.fst, strLt y m0 = true := by
      intro y hy
      have hpw := chain'_strLt_pairwise hchain
      exact (List.pairwise_append.mp hpw).2.2 y hy m0 (List.mem_cons_self _ _)
    have hstep := calc_chain_step hbg hgo hid hbgt hstate hlt
    have hnone : alookup t.monthlyPriorities m0 = none := by
      apply alookup_none_of_not_mem_keys
      intro p hp
      exact strLt_ne (hlt p.1 (List.mem_map_of_mem Prod.fst hp))
    rw [resolveChain_cons]
    cases rest with
    | nil =>
      have hm0 : m0 = mL := by simpa using hmL
      subst hm0
      show alookup (_calculate_monthly_priorities_and_save t m m0).1.monthlyPriorities
          m0 = _
      rw [hstep]
      show alookup (t.monthlyPriorities ++ [(m0, rotStep^[c + 1] bg)]) m0 = _
      rw [alookup_append_right hnone]
      simp [alookup]
    | cons m1 rest' =>
      have hkeys' : (_calculate_monthly_priorities_and_save t m m0).1.monthlyPriorities.map
          Prod.fst = t.monthlyPriorities.map Prod.fst ++ [m0] := by
        rw [hstep]
        show (t.monthlyPriorities ++ [(m0, rotStep^[c + 1] bg)]).map Prod.fst = _
        rw [List.map_append]
        rfl
      have harith : c + (m0 :: m1 :: rest').length = (c + 1) + (m1 :: rest').length := by
        simp only [List.length_cons]
        omega
      rw [harith]
      apply ih (_calculate_monthly_priorities_and_save t m m0).1 (c + 1)
      · rw [hstep]
        exact hid
      · rw [hstep]
        exact hbgt
      · right
        refine ⟨t.monthlyPriorities, m0, ?_, hlt⟩
        rw [hstep]
      · rw [hkeys', List.append_assoc]
        simpa using hchain
      · exact List.getLast?_cons_cons ▸ hmL

/-- Claim C8: starting from a team with no stored monthly priorities, resolving
`k` strictly increasing months applies the rotation step exactly `k` times to
the base grouping: in the snapshot stored for the last month, the group at
position `i` is the base group at position `(i + k) mod (number of groups)`,
cyclically shifted so that its member at position `j` is that base group's
member at position `(j + k) mod (group size)`.  (The base grouping is assumed
non-empty and to name only engineers of the team, so the read-time filter is
the identity — the claim's "membership and baseGroups stay unchanged".) -/
theorem rotation_chain_cyclic (t : TeamRec) (m : List (String × EngineerRec))
    (ms : List String) (mL : String)
    (hmp : t.monthlyPriorities = [])
    (hbg : t.baseGroups ≠ [])
    (hmem : GroupsOk m t.id t.baseGroups)
    (hchain : List.Chain' (fun a b => strLt a b = true) ms)
    (hlast : ms.getLast? = some mL) :
    ∃ snap, alookup (resolveChain t m ms).monthlyPriorities mL = some snap
      ∧ snap.length = t.baseGroups.length
      ∧ ∀ i gi g, snap.get? i = some gi →
          t.baseGroups.get? ((i + ms.length) % t.baseGroups.length) = some g →
          gi.length = g.length ∧
          ∀ j, j < g.length → gi.get? j = g.get? ((j + ms.length) % g.length) := by
  have hstate : ChainState t.baseGroups t 0 := Or.inl ⟨hmp, rfl⟩
  have hchain2 : List.Chain' (fun a b => strLt a b = true)
      (t.monthlyPriorities.map Prod.fst ++ ms) := by
    rw [hmp]
    simpa using hchain
  have hres := resolveChain_lookup hbg hmem ms t 0 rfl rfl hstate hchain2 mL hlast
  have hzero : (0 : Nat) + ms.length = ms.length := Nat.zero_add _
  rw [hzero] at hres
  refine ⟨rotStep^[ms.length] t.baseGroups, hres, ?_, ?_⟩
  · exact rotStep_iterate_length ms.length t.baseGroups
  · intro i gi g hgi hg
    rw [rotStep_iterate] at hgi
    have hilen : i < t.baseGroups.length := by
      by_contra hge
      rw [List.get?_eq_none.mpr (by
        rw [List.length_map, List.length_rotate]
        exact Nat.le_of_not_lt hge)] at hgi
      exact Option.noConfusion hgi
    rw [List.get?_map] at hgi
    have hrot : (t.baseGroups.rotate ms.length).get? i
        = t.baseGroups.get? ((i + ms.length) % t.baseGroups.length) :=
      List.get?_rotate hilen
    rw [hrot, hg] at hgi
    simp only [Option.map_some', Option.some_inj] at hgi
    subst hgi
    constructor
    · exact List.length_rotate g ms.length
    · intro j hj
      exact List.get?_rotate hj

/-- Witness for claim C8 at a concrete input: two successive months applied to
a two-group base. -/
theorem rotation_chain_cyclic_witness :
    c8team.monthlyPriorities = []
  ∧ c8team.baseGroups ≠ []
  ∧ GroupsOk c8map c8team.id c8team.baseGroups
  ∧ List.Chain' (fun a b => strLt a b = true) ["2025-01", "2025-02"]
  ∧ (["2025-01", "2025-02"] : List String).getLast? = some "2025-02"
  ∧ (∃ snap, alookup (resolveChain c8team c8map
        ["2025-01", "2025-02"]).monthlyPriorities "2025-02" = some snap
      ∧ snap.length = c8team.baseGroups.length
      ∧ ∀ i gi g, snap.get? i = some gi →
          c8team.baseGroups.get?
            ((i + (["2025-01", "2025-02"] : List String).length)
              % c8team.baseGroups.length) = some g →
          gi.length = g.length ∧
          ∀ j, j < g.length →
            gi.get? j = g.get?
              ((j + (["2025-01", "2025-02"] : List String).length) % g.length)) :=
  ⟨rfl, by decide, by unfold GroupsOk; decide,
    List.chain'_pair.mpr (by decide), rfl,
    rotation_chain_cyclic c8team c8map ["2025-01", "2025-02"] "2025-02" rfl
      (by decide) (by unfold GroupsOk; decide)
      (List.chain'_pair.mpr (by decide)) rfl⟩

theorem foldl_max_init_le : ∀ (l : List Nat) (a : Nat), a ≤ l.foldl Nat.max a := by
  intro l
  induction l with
  | nil => intro a; exact Nat.le_refl a
  | cons x xs ih =>
    intro a
    exact Nat.le_trans (Nat.le_max_left a x) (ih (Nat.max a x))

theorem le_foldl_max : ∀ {l : List Nat} {x : Nat}, x ∈ l →
    ∀ (a : Nat), x ≤ l.foldl Nat.max a := by
  intro l
  induction l with
  | nil => intro x hx; simp at hx
  | cons y ys ih =>
    intro x hx a
    rcases List.mem_cons.mp hx with he | hr
    · subst he
      exact Nat.le_trans (Nat.le_max_right a x) (foldl_max_init_le ys (Nat.max a x))
    · exact ih hr (Nat.max a y)

theorem split_by_indexOf : ∀ {F : List String} {x y : String},
    F.Nodup → x ∈ F → y ∈ F → F.indexOf x < F.indexOf y →
    ∃ A B, F = A ++ x :: B ∧ x ∉ A ∧ y ∉ A ∧ x ∉ B ∧ y ∈ B := by
  intro F
  induction F with
  | nil => intro x y _ hx _ _; simp at hx
  | cons a rest ih =>
    intro x y hnd hx hy hlt
    by_cases hxa : x = a
    · subst hxa
      have hyx : y ≠ x := by
        intro he
        subst he
        exact Nat.lt_irrefl _ hlt
      have hyr : y ∈ rest := (List.mem_cons.mp hy).resolve_left hyx
      exact ⟨[], rest, rfl, by simp, by simp, (List.nodup_cons.mp hnd).1, hyr⟩
    · have hya : y ≠ a := by
        intro he
        subst he
        rw [List.indexOf_cons_self] at hlt
        exact Nat.not_lt_zero _ hlt
      have hxr : x ∈ rest := (List.mem_cons.mp hx).resolve_left hxa
      have hyr : y ∈ rest := (List.mem_cons.mp hy).resolve_left hya
      have hlt' : rest.indexOf x < rest.indexOf y := by
        have h1 : List.indexOf x (a :: rest) = rest.indexOf x + 1 :=
          List.indexOf_cons_ne rest (fun he => hxa he.symm)
        have h2 : List.indexOf y (a :: rest) = rest.indexOf y + 1 :=
          List.indexOf_cons_ne rest (fun he => hya he.symm)
        rw [h1, h2] at hlt
        omega
      obtain ⟨A', B', hF, hxA, hyA, hxB, hyB⟩ :=
        ih (List.nodup_cons.mp hnd).2 hxr hyr hlt'
      refine ⟨a :: A', B', by rw [hF]; rfl, ?_, ?_, hxB, hyB⟩
      · intro hm
        rcases List.mem_cons.mp hm with he | hr
        · exact hxa he
        · exact hxA hr
      · intro hm
        rcases List.mem_cons.mp hm with he | hr
        · exact hya he
        · exact hyA hr

theorem passFold_cons_ok {month_str : String} {t : TeamData} {ocd : List String}
    {f : EngineerData} {rest : List EngineerData} {st st' : TeamSimState}
    (h : passFold month_str t ocd (f :: rest) st = .ok st') :
    ∃ stm, engineerStep month_str t ocd f st = .ok stm ∧
      passFold month_str t ocd rest stm = .ok st' := by
  simp only [passFold] at h
  split at h
  · exact absurd h (by simp)
  · rename_i st1 hstep
    exact ⟨st1, hstep, h⟩

theorem passFold_append_ok {month_str : String} {t : TeamData} {ocd : List String} :
    ∀ {xs ys : List EngineerData} {st st' : TeamSimState},
      passFold month_str t ocd (xs ++ ys) st = .ok st' →
      ∃ stm, passFold month_str t ocd xs st = .ok stm ∧
        passFold month_str t ocd ys stm = .ok st' := by
  intro xs
  induction xs with
  | nil => intro ys st st' h; exact ⟨st, rfl, h⟩
  | cons f rest ih =>
    intro ys st st' h
    rw [List.cons_append] at h
    obtain ⟨st1, hstep, hrest⟩ := passFold_cons_ok h
    obtain ⟨stm, h1, h2⟩ := ih hrest
    refine ⟨stm, ?_, h2⟩
    simp only [passFold]
    rw [hstep]
    exact h1

theorem runPasses_succ_ok {month_str : String} {t : TeamData} {ocd : List String}
    {plist : List EngineerData} {n : Nat} {st st' : TeamSimState}
    (h : runPasses month_str t ocd plist (n + 1) st = .ok st') :
    ∃ st1, passFold month_str t ocd plist st = .ok st1 ∧
      runPasses month_str t ocd plist n st1 = .ok st' := by
  simp only [runPasses] at h
  split at h
  · exact absurd h (by simp)
  · rename_i st1 hpass
    exact ⟨st1, hpass, h⟩

/-- Scanning an engineer's preferred days only touches that engineer's counter
and the preferred days' lists. -/
theorem attemptDays_effect {t : TeamData} {ocd : List String} {e : EngineerData}
    {st st' : TeamSimState} :
    ∀ {prefs : List String}, attemptDays t ocd e prefs st = .ok st' →
      (∀ n, n ≠ e.name → alookup st'.counts n = alookup st.counts n) ∧
      (∀ day, day ∉ prefs → alookup st'.asg day = alookup st.asg day) := by
  intro prefs
  induction prefs with
  | nil =>
    intro h
    simp only [attemptDays, Except.ok.injEq] at h
    rw [← h]
    exact ⟨fun n _ => rfl, fun day _ => rfl⟩
  | cons d rest ih =>
    intro h
    simp only [attemptDays] at h
    split at h
    · exact absurd h (by simp)
    · rename_i l hld
      by_cases hcond : (decide (l.length < alookupD t.shift_overrides d t.shifts_per_day)
          && !(l.contains e.name)) = true
      · rw [if_pos hcond] at h
        by_cases hpref : (e.consecutive_pref == "avoid") = true
        · rw [if_pos hpref] at h
          split at h
          · exact absurd h (by simp)
          · rename_i i hidx
            by_cases hadjb : ((decide (0 < i) &&
                  ((alookup st.asg (ocd.getD (i - 1) "")).getD []).contains e.name) ||
                (decide (i < ocd.length - 1) &&
                  ((alookup st.asg (ocd.getD (i + 1) "")).getD []).contains e.name))
                = true
            · rw [if_pos hadjb] at h
              obtain ⟨hc, ha⟩ := ih h
              exact ⟨hc, fun day hday =>
                ha day (fun hm => hday (List.mem_cons_of_mem d hm))⟩
            · rw [if_neg hadjb] at h
              simp only [Except.ok.injEq] at h
              rw [← h]
              refine ⟨?_, ?_⟩
              · intro n hn
                show alookup (mapIncr st.counts e.name) n = alookup st.counts n
                rw [alookup_mapIncr, if_neg hn]
              · intro day hday
                have hne : day ≠ d := fun he => hday (he ▸ List.mem_cons_self d rest)
                exact alookup_setAt_ne st.asg hne _
        · rw [if_neg hpref] at h
          simp only [Except.ok.injEq] at h
          rw [← h]
          refine ⟨?_, ?_⟩
          · intro n hn
            show alookup (mapIncr st.counts e.name) n = alookup st.counts n
            rw [alookup_mapIncr, if_neg hn]
          · intro day hday
            have hne : day ≠ d := fun he => hday (he ▸ List.mem_cons_self d rest)
            exact alookup_setAt_ne st.asg hne _
      · rw [if_neg hcond] at h
        obtain ⟨hc, ha⟩ := ih h
        exact ⟨hc, fun day hday => ha day (fun hm => hday (List.mem_cons_of_mem d hm))⟩

/-- One engineer's turn only touches that engineer's counter and the days they
prefer, and requires their counter to exist. -/
theorem engineerStep_effect {month_str : String} {t : TeamData} {ocd : List String}
    {e : EngineerData} {st st' : TeamSimState}
    (h : engineerStep month_str t ocd e st = .ok st') :
    (∃ c, alookup st.counts e.name = some c) ∧
    (∀ n, n ≠ e.name → alookup st'.counts n = alookup st.counts n) ∧
    (∀ day, day ∉ alookupD e.preferences month_str [] →
      alookup st'.asg day = alookup st.asg day) := by
  unfold engineerStep at h
  split at h
  · exact absurd h (by simp)
  · rename_i c hcnt
    refine ⟨⟨c, hcnt⟩, ?_⟩
    by_cases hcm : c < e.maxShifts
    · rw [if_pos hcm] at h
      by_cases hp : (alookupD e.preferences month_str []).isEmpty = true
      · rw [if_pos hp] at h
        simp only [Except.ok.injEq] at h
        rw [← h]
        exact ⟨fun n _ => rfl, fun day _ => rfl⟩
      · rw [if_neg hp] at h
        exact attemptDays_effect h
    · rw [if_neg hcm] at h
      simp only [Except.ok.injEq] at h
      rw [← h]
      exact ⟨fun n _ => rfl, fun day _ => rfl⟩

theorem not_mem_day_of_occD_zero {ocd : List String}
    {asg : List (String × List String)} {n : String}
    (h : occD ocd asg n = 0) {x : String} (hx : x ∈ ocd) :
    ((alookup asg x).getD []).contains n = false := by
  unfold occD at h
  have hnil := List.length_eq_zero.mp h
  have hp := List.filter_eq_nil_iff.mp hnil x hx
  cases hc : ((alookup asg x).getD []).contains n with
  | false => rfl
  | true =>
    exact absurd (show (dayList asg x).contains n = true from hc) hp

/-- A turn by an engineer who is neither contender and does not prefer the
contested day keeps the pre-contention phase. -/
theorem engineerStep_pre {month_str : String} {t : TeamData}
    {m : List (String × EngineerData)} {ocd : List String}
    {d e1 e2 : String} {f : EngineerData} {st st' : TeamSimState}
    (hfm : alookup m f.name = some f)
    (hne1 : f.name ≠ e1) (hne2 : f.name ≠ e2)
    (hothers : ∀ p ∈ m, p.2.team = t.name → p.1 ≠ e1 → p.1 ≠ e2 →
      d ∉ alookupD p.2.preferences month_str [])
    (hInv : InvT t m ocd st)
    (h : engineerStep month_str t ocd f st = .ok st')
    (hPre : Pre d e1 e2 st) : Pre d e1 e2 st' := by
  obtain ⟨⟨c, hc⟩, hcount, hasg⟩ := engineerStep_effect h
  have hsome : (alookup st.counts f.name).isSome = true := by rw [hc]; rfl
  obtain ⟨e, hem, hteam⟩ := hInv.countsTeam f.name hsome
  have hef : e = f := Option.some_inj.mp (hem.symm.trans hfm)
  subst hef
  have hdnp : d ∉ alookupD e.preferences month_str [] :=
    hothers (e.name, e) (alookup_mem hfm) hteam hne1 hne2
  obtain ⟨hP1, hP2, hP3⟩ := hPre
  refine ⟨?_, ?_, ?_⟩
  · intro l hl
    rw [hasg d hdnp] at hl
    exact hP1 l hl
  · rw [hcount e1 (fun he => hne1 he.symm)]
    exact hP2
  · rw [hcount e2 (fun he => hne2 he.symm)]
    exact hP3

/-- A pass segment consisting only of non-contenders keeps the pre-contention
phase. -/
theorem passFold_pre {month_str : String} {t : TeamData}
    {m : List (String × EngineerData)} {ocd : List String} (hnd : ocd.Nodup)
    {d e1 e2 : String}
    (hothers : ∀ p ∈ m, p.2.team = t.name → p.1 ≠ e1 → p.1 ≠ e2 →
      d ∉ alookupD p.2.preferences month_str []) :
    ∀ {fs : List EngineerData} {st st' : TeamSimState},
      (∀ f ∈ fs, alookup m f.name = some f ∧ f.name ≠ e1 ∧ f.name ≠ e2) →
      InvT t m ocd st → Pre d e1 e2 st →
      passFold month_str t ocd fs st = .ok st' →
      InvT t m ocd st' ∧ Pre d e1 e2 st' := by
  intro fs
  induction fs with
  | nil =>
    intro st st' _ hInv hPre h
    simp only [passFold, Except.ok.injEq] at h
    rw [← h]
    exact ⟨hInv, hPre⟩
  | cons f rest ih =>
    intro st st' hfs hInv hPre h
    obtain ⟨st1, hstep, hrest⟩ := passFold_cons_ok h
    obtain ⟨hfm, h1, h2⟩ := hfs f (List.mem_cons_self f rest)
    exact ih (fun g hg => hfs g (List.mem_cons_of_mem f hg))
      (engineerStep_inv hnd hfm hInv hstep)
      (engineerStep_pre hfm h1 h2 hothers hInv hstep hPre) hrest

/-- In the pre-contention phase, the first contender's turn assigns them the
contested day. -/
theorem engineerStep_e1_wins {month_str : String} {t : TeamData}
    {m : List (String × EngineerData)} {ocd : List String} (hnd : ocd.Nodup)
    {d e1 e2 : String} {E1 : EngineerData} {st st' : TeamSimState}
    (hE1 : alookup m e1 = some E1) (hname1 : E1.name = e1)
    (hm1 : E1.maxShifts = 1)
    (hp1 : alookupD E1.preferences month_str [] = [d])
    (hcap : alookupD t.shift_overrides d t.shifts_per_day = 1)
    (hne : e1 ≠ e2)
    (hInv : InvT t m ocd st) (hPre : Pre d e1 e2 st)
    (h : engineerStep month_str t ocd E1 st = .ok st') :
    InvT t m ocd st' ∧ Won d e1 e2 st' := by
  have hlk : alookup m E1.name = some E1 := by rw [hname1]; exact hE1
  refine ⟨engineerStep_inv hnd hlk hInv h, ?_⟩
  obtain ⟨hP1, hP2, hP3⟩ := hPre
  unfold engineerStep at h
  rw [hname1] at h
  split at h
  · rename_i hc
    exact Option.noConfusion (hP2.symm.trans hc)
  · rename_i c hc
    have hc0 : c = 0 := (Option.some_inj.mp (hP2.symm.trans hc)).symm
    subst hc0
    rw [hm1, if_pos (by omega : (0 : Nat) < 1), hp1, if_neg (by simp)] at h
    simp only [attemptDays] at h
    rw [hname1] at h
    split at h
    · rename_i hld
      exact absurd h (by simp)
    · rename_i l hld
      have hl0 : l = [] := hP1 l hld
      subst hl0
      rw [hcap] at h
      have hWon : Won d e1 e2 ⟨mapIncr st.counts e1, setAt st.asg d ([] ++ [e1])⟩ := by
        refine ⟨?_, ?_, ?_⟩
        · show alookup (setAt st.asg d ([] ++ [e1])) d = some [e1]
          rw [alookup_setAt_self hld]
          rfl
        · show alookup (mapIncr st.counts e1) e1 = some 1
          rw [alookup_mapIncr, if_pos rfl, hP2]
          rfl
        · show alookup (mapIncr st.counts e1) e2 = some 0
          rw [alookup_mapIncr, if_neg (fun he => hne he.symm)]
          exact hP3
      have hcondT : (decide ((([] : List String)).length < 1) &&
          !(([] : List String).contains e1)) = true := rfl
      rw [if_pos hcondT] at h
      by_cases hpref : (E1.consecutive_pref == "avoid") = true
      · rw [if_pos hpref] at h
        split at h
        · rename_i hidx
          have hdo : d ∈ ocd := key_mem_ocd hInv hld
          obtain ⟨i, hi⟩ := idxMap_lookup_isSome 0 hdo
          exact Option.noConfusion (hi.symm.trans hidx)
        · rename_i i hidx
          have hocc : occD ocd st.asg e1 = 0 := (hInv.countsVal e1 0 hP2).1.symm
          have hcont : ∀ x ∈ ocd, ((alookup st.asg x).getD []).contains e1 = false :=
            fun x hx => not_mem_day_of_occD_zero hocc hx
          have hilen : i < ocd.length := by
            have hg := idxMap0_get hidx
            by_contra hge
            rw [List.get?_eq_none.mpr (Nat.le_of_not_lt hge)] at hg
            exact Option.noConfusion hg
          have hA : (decide (0 < i) &&
              ((alookup st.asg (ocd.getD (i - 1) "")).getD []).contains e1) = false := by
            by_cases h0 : 0 < i
            · have hlt1 : i - 1 < ocd.length := by omega
              have hget : ocd.get? (i - 1) = some (ocd.get ⟨i - 1, hlt1⟩) :=
                List.get?_eq_get hlt1
              have hmem : ocd.getD (i - 1) "" ∈ ocd := by
                rw [getD_of_get? hget]
                exact List.get_mem ocd (i - 1) hlt1
              rw [hcont (ocd.getD (i - 1) "") hmem, Bool.and_false]
            · rw [decide_eq_false h0, Bool.false_and]
          have hB : (decide (i < ocd.length - 1) &&
              ((alookup st.asg (ocd.getD (i + 1) "")).getD []).contains e1) = false := by
            by_cases h1 : i < ocd.length - 1
            · have hlt1 : i + 1 < ocd.length := by omega
              have hget : ocd.get? (i + 1) = some (ocd.get ⟨i + 1, hlt1⟩) :=
                List.get?_eq_get hlt1
              have hmem : ocd.getD (i + 1) "" ∈ ocd := by
                rw [getD_of_get? hget]
                exact List.get_mem ocd (i + 1) hlt1
              rw [hcont (ocd.getD (i + 1) "") hmem, Bool.and_false]
            · rw [decide_eq_false h1, Bool.false_and]
          rw [hA, hB, Bool.or_self, if_neg (by simp)] at h
          simp only [Except.ok.injEq] at h
          rw [← h]
          exact hWon
      · rw [if_neg hpref] at h
        simp only [Except.ok.injEq] at h
        rw [← h]
        exact hWon

/-- Once the contested day is taken by the winner at full personal cap, every
further turn keeps the post-contention phase: the winner is skipped by the cap
check, the loser finds the day full, and everyone else neither touches the day
nor the contenders' counters. -/
theorem engineerStep_won {month_str : String} {t : TeamData}
    {m : List (String × EngineerData)} {ocd : List String} (hnd : ocd.Nodup)
    {d e1 e2 : String} {E1 E2 : EngineerData}
    (hE1 : alookup m e1 = some E1) (hname1 : E1.name = e1) (hm1 : E1.maxShifts = 1)
    (hE2 : alookup m e2 = some E2) (hname2 : E2.name = e2) (hm2 : E2.maxShifts = 1)
    (hp2 : alookupD E2.preferences month_str [] = [d])
    (hcap : alookupD t.shift_overrides d t.shifts_per_day = 1)
    (hothers : ∀ p ∈ m, p.2.team = t.name → p.1 ≠ e1 → p.1 ≠ e2 →
      d ∉ alookupD p.2.preferences month_str [])
    {f : EngineerData} (hfm : alookup m f.name = some f)
    {st st' : TeamSimState}
    (hInv : InvT t m ocd st) (hWon : Won d e1 e2 st)
    (h : engineerStep month_str t ocd f st = .ok st') :
    InvT t m ocd st' ∧ Won d e1 e2 st' := by
  refine ⟨engineerStep_inv hnd hfm hInv h, ?_⟩
  obtain ⟨hW1, hW2, hW3⟩ := hWon
  by_cases hfe1 : f.name = e1
  · have hfE1 : f = E1 := by
      have hfm1 := hfm
      rw [hfe1] at hfm1
      exact Option.some_inj.mp (hfm1.symm.trans hE1)
    subst hfE1
    unfold engineerStep at h
    rw [hname1] at h
    split at h
    · rename_i hc
      exact Option.noConfusion (hW2.symm.trans hc)
    · rename_i c hc
      have hc1 : c = 1 := (Option.some_inj.mp (hW2.symm.trans hc)).symm
      subst hc1
      rw [hm1, if_neg (by omega : ¬((1 : Nat) < 1))] at h
      simp only [Except.ok.injEq] at h
      rw [← h]
      exact ⟨hW1, hW2, hW3⟩
  · by_cases hfe2 : f.name = e2
    · have hfE2 : f = E2 := by
        have hfm2 := hfm
        rw [hfe2] at hfm2
        exact Option.some_inj.mp (hfm2.symm.trans hE2)
      subst hfE2
      unfold engineerStep at h
      rw [hname2] at h
      split at h
      · rename_i hc
        exact Option.noConfusion (hW3.symm.trans hc)
      · rename_i c hc
        have hc0 : c = 0 := (Option.some_inj.mp (hW3.symm.trans hc)).symm
        subst hc0
        rw [hm2, if_pos (by omega : (0 : Nat) < 1), hp2, if_neg (by simp)] at h
        simp only [attemptDays] at h
        split at h
        · rename_i hld
          exact Option.noConfusion (hW1.symm.trans hld)
        · rename_i l hld
          have hle : l = [e1] := (Option.some_inj.mp (hW1.symm.trans hld)).symm
          subst hle
          rw [hcap] at h
          have hfalse : (decide (([e1] : List String).length < 1) &&
              !(([e1] : List String).contains f.name)) = false := rfl
          rw [hfalse, if_neg (by simp)] at h
          simp only [attemptDays, Except.ok.injEq] at h
          rw [← h]
          exact ⟨hW1, hW2, hW3⟩
    · obtain ⟨⟨c, hc⟩, hcount, hasg⟩ := engineerStep_effect h
      have hsome : (alookup st.counts f.name).isSome = true := by rw [hc]; rfl
      obtain ⟨e, hem, hteam⟩ := hInv.countsTeam f.name hsome
      have hef : e = f := Option.some_inj.mp (hem.symm.trans hfm)
      subst hef
      have hdnp : d ∉ alookupD e.preferences month_str [] :=
        hothers (e.name, e) (alookup_mem hfm) hteam hfe1 hfe2
      refine ⟨?_, ?_, ?_⟩
      · rw [hasg d hdnp]
        exact hW1
      · rw [hcount e1 (fun he => hfe1 he.symm)]
        exact hW2
      · rw [hcount e2 (fun he => hfe2 he.symm)]
        exact hW3

/-- A pass segment keeps the post-contention phase. -/
theorem passFold_won {month_str : String} {t : TeamData}
    {m : List (String × EngineerData)} {ocd : List String} (hnd : ocd.Nodup)
    {d e1 e2 : String} {E1 E2 : EngineerData}
    (hE1 : alookup m e1 = some E1) (hname1 : E1.name = e1) (hm1 : E1.maxShifts = 1)
    (hE2 : alookup m e2 = some E2) (hname2 : E2.name = e2) (hm2 : E2.maxShifts = 1)
    (hp2 : alookupD E2.preferences month_str [] = [d])
    (hcap : alookupD t.shift_overrides d t.shifts_per_day = 1)
    (hothers : ∀ p ∈ m, p.2.team = t.name → p.1 ≠ e1 → p.1 ≠ e2 →
      d ∉ alookupD p.2.preferences month_str []) :
    ∀ {fs : List EngineerData} {st st' : TeamSimState},
      (∀ f ∈ fs, alookup m f.name = some f) →
      InvT t m ocd st → Won d e1 e2 st →
      passFold month_str t ocd fs st = .ok st' →
      InvT t m ocd st' ∧ Won d e1 e2 st' := by
  intro fs
  induction fs with
  | nil =>
    intro st st' _ hInv hWon h
    simp only [passFold, Except.ok.injEq] at h
    rw [← h]
    exact ⟨hInv, hWon⟩
  | cons f rest ih =>
    intro st st' hfs hInv hWon h
    obtain ⟨st1, hstep, hrest⟩ := passFold_cons_ok h
    have hfm := hfs f (List.mem_cons_self f rest)
    obtain ⟨hInv1, hWon1⟩ := engineerStep_won hnd hE1 hname1 hm1 hE2 hname2 hm2
      hp2 hcap hothers hfm hInv hWon hstep
    exact ih (fun g hg => hfs g (List.mem_cons_of_mem f hg)) hInv1 hWon1 hrest

/-- All remaining passes keep the post-contention phase. -/
theorem runPasses_won {month_str : String} {t : TeamData}
    {m : List (String × EngineerData)} {ocd : List String} (hnd : ocd.Nodup)
    {d e1 e2 : String} {E1 E2 : EngineerData}
    (hE1 : alookup m e1 = some E1) (hname1 : E1.name = e1) (hm1 : E1.maxShifts = 1)
    (hE2 : alookup m e2 = some E2) (hname2 : E2.name = e2) (hm2 : E2.maxShifts = 1)
    (hp2 : alookupD E2.preferences month_str [] = [d])
    (hcap : alookupD t.shift_overrides d t.shifts_per_day = 1)
    (hothers : ∀ p ∈ m, p.2.team = t.name → p.1 ≠ e1 → p.1 ≠ e2 →
      d ∉ alookupD p.2.preferences month_str [])
    {plist : List EngineerData} (hes : ∀ f ∈ plist, alookup m f.name = some f) :
    ∀ {n : Nat} {st st' : TeamSimState},
      InvT t m ocd st → Won d e1 e2 st →
      runPasses month_str t ocd plist n st = .ok st' →
      InvT t m ocd st' ∧ Won d e1 e2 st' := by
  intro n
  induction n with
  | zero =>
    intro st st' hInv hWon h
    simp only [runPasses, Except.ok.injEq] at h
    rw [← h]
    exact ⟨hInv, hWon⟩
  | succ k ih =>
    intro st st' hInv hWon h
    obtain ⟨st1, hpass, hrest⟩ := runPasses_succ_ok h
    obtain ⟨hInv1, hWon1⟩ := passFold_won hnd hE1 hname1 hm1 hE2 hname2 hm2
      hp2 hcap hothers hes hInv hWon hpass
    exact ih hInv1 hWon1 hrest

theorem counts0_lookup {es : List EngineerData} {n : String} {E : EngineerData}
    (hE : E ∈ es) (hn : E.name = n) :
    alookup (es.map (fun e => (e.name, 0))) n = some 0 := by
  have hp : (n, 0) ∈ es.map (fun e => (e.name, 0)) :=
    List.mem_map.mpr ⟨E, hE, by rw [hn]⟩
  have hmem : n ∈ (es.map (fun e => (e.name, 0))).map Prod.fst :=
    List.mem_map.mpr ⟨(n, 0), hp, rfl⟩
  have hs := alookup_isSome_of_fst_mem hmem
  cases hcc : alookup (es.map (fun e => (e.name, 0))) n with
  | none =>
    rw [hcc] at hs
    exact Bool.noConfusion hs
  | some c =>
    rw [(alookup_map_zero hcc).1]

/-- A completed team run under two-way contention: the better-ranked contender
holds the contested day alone and the other contender holds nothing. -/
theorem processTeam_c9 {month_str : String} {ocd : List String}
    {m : List (String × EngineerData)} {t : TeamData} (hnd : ocd.Nodup)
    (hknd : KeysNodup m) (hwf : MapNamesOk m)
    {d e1 e2 : String} {E1 E2 : EngineerData}
    (hE1 : alookup m e1 = some E1) (hE2 : alookup m e2 = some E2)
    (hne : e1 ≠ e2)
    (ht1 : E1.team = t.name) (ht2 : E2.team = t.name)
    (hm1 : E1.maxShifts = 1) (hm2 : E2.maxShifts = 1)
    (hp1 : alookupD E1.preferences month_str [] = [d])
    (hp2 : alookupD E2.preferences month_str [] = [d])
    (hcap : alookupD t.shift_overrides d t.shifts_per_day = 1)
    (hFnd : ((priorityNamesFor month_str m t).flatten).Nodup)
    (h1F : e1 ∈ (priorityNamesFor month_str m t).flatten)
    (h2F : e2 ∈ (priorityNamesFor month_str m t).flatten)
    (hidx : ((priorityNamesFor month_str m t).flatten).indexOf e1
      < ((priorityNamesFor month_str m t).flatten).indexOf e2)
    (hothers : ∀ p ∈ m, p.2.team = t.name → p.1 ≠ e1 → p.1 ≠ e2 →
      d ∉ alookupD p.2.preferences month_str [])
    {r : Option (List (String × List String))}
    (h : processTeam month_str ocd m t = .ok r) :
    ∃ asgT, r = some asgT ∧ asgT.map Prod.fst = ocd
      ∧ alookup asgT d = some [e1]
      ∧ ∀ p ∈ asgT, e2 ∉ p.2 := by
  have hname1 : E1.name = e1 := hwf (e1, E1) (alookup_mem hE1)
  have hname2 : E2.name = e2 := hwf (e2, E2) (alookup_mem hE2)
  have hE1mem : E1 ∈ (m.map Prod.snd).filter (fun e => e.team == t.name) :=
    List.mem_filter.mpr
      ⟨List.mem_map.mpr ⟨(e1, E1), alookup_mem hE1, rfl⟩, beq_iff_eq.mpr ht1⟩
  have hE2mem : E2 ∈ (m.map Prod.snd).filter (fun e => e.team == t.name) :=
    List.mem_filter.mpr
      ⟨List.mem_map.mpr ⟨(e2, E2), alookup_mem hE2, rfl⟩, beq_iff_eq.mpr ht2⟩
  have hemp : ((m.map Prod.snd).filter (fun e => e.team == t.name)).isEmpty = false :=
    isEmpty_false_of_ne_nil (List.ne_nil_of_mem hE1mem)
  unfold processTeam at h
  rw [if_neg (by rw [hemp]; exact Bool.false_ne_true)] at h
  split at h
  · exact absurd h (by simp)
  · rename_i st hrun
    simp only [Except.ok.injEq] at h
    have h1N : 1 ≤ ((((m.map Prod.snd).filter (fun e => e.team == t.name)).map
        (fun e => e.maxShifts)).foldl Nat.max 0) := by
      have hmm : E1.maxShifts ∈ ((m.map Prod.snd).filter
          (fun e => e.team == t.name)).map (fun e => e.maxShifts) :=
        List.mem_map.mpr ⟨E1, hE1mem, rfl⟩
      have hle := le_foldl_max hmm 0
      rw [hm1] at hle
      exact hle
    obtain ⟨n, hn⟩ := Nat.exists_eq_add_of_le h1N
    rw [hn, Nat.add_comm] at hrun
    obtain ⟨A, B, hFsplit, hxA, hyA, hxB, hyB⟩ :=
      split_by_indexOf hFnd h1F h2F hidx
    have hplist : monthlyPriorityList month_str m t
        = A.filterMap (fun k => alookup m k)
          ++ E1 :: B.filterMap (fun k => alookup m k) := by
      unfold monthlyPriorityList
      rw [hFsplit, List.filterMap_append, List.filterMap_cons, hE1]
    rw [hplist] at hrun
    obtain ⟨st1, hpass1, hrest⟩ := runPasses_succ_ok hrun
    obtain ⟨stm, hA1, hA2⟩ := passFold_append_ok hpass1
    obtain ⟨stm2, hstepE1, hBfold⟩ := passFold_cons_ok hA2
    have hInv0 := initial_inv (t := t) hnd hknd hwf
    have hPre0 : Pre d e1 e2
        ⟨((m.map Prod.snd).filter (fun e => e.team == t.name)).map
            (fun e => (e.name, 0)),
          ocd.map (fun d => (d, ([] : List String)))⟩ := by
      refine ⟨?_, counts0_lookup hE1mem hname1, counts0_lookup hE2mem hname2⟩
      intro l hl
      have hdl := dayList_const_nil ocd d
      unfold dayList at hdl
      rw [hl] at hdl
      exact hdl
    have hAprop : ∀ f ∈ A.filterMap (fun k => alookup m k),
        alookup m f.name = some f ∧ f.name ≠ e1 ∧ f.name ≠ e2 := by
      intro f hf
      obtain ⟨k, hkA, hk⟩ := List.mem_filterMap.mp hf
      have hfk : f.name = k := hwf (k, f) (alookup_mem hk)
      refine ⟨lookup_self_of_lookup hknd hwf hk, ?_, ?_⟩
      · rw [hfk]
        intro he
        exact hxA (he ▸ hkA)
      · rw [hfk]
        intro he
        exact hyA (he ▸ hkA)
    have hBprop : ∀ f ∈ B.filterMap (fun k => alookup m k),
        alookup m f.name = some f := by
      intro f hf
      obtain ⟨k, _, hk⟩ := List.mem_filterMap.mp hf
      exact lookup_self_of_lookup hknd hwf hk
    have hplistprop : ∀ f ∈ A.filterMap (fun k => alookup m k)
        ++ E1 :: B.filterMap (fun k => alookup m k), alookup m f.name = some f := by
      rw [← hplist]
      exact plist_lookup hknd hwf
    obtain ⟨hInvm, hPrem⟩ := passFold_pre hnd hothers hAprop hInv0 hPre0 hA1
    obtain ⟨hInvm2, hWonm2⟩ :=
      engineerStep_e1_wins hnd hE1 hname1 hm1 hp1 hcap hne hInvm hPrem hstepE1
    obtain ⟨hInv1, hWon1⟩ := passFold_won hnd hE1 hname1 hm1 hE2 hname2 hm2
      hp2 hcap hothers hBprop hInvm2 hWonm2 hBfold
    obtain ⟨hInvF, hWonF⟩ := runPasses_won hnd hE1 hname1 hm1 hE2 hname2 hm2
      hp2 hcap hothers hplistprop hInv1 hWon1 hrest
    refine ⟨st.asg, h.symm, hInvF.keys, hWonF.1, ?_⟩
    intro p hp hin
    have hkeysnd : KeysNodup st.asg := by
      unfold KeysNodup
      rw [hInvF.keys]
      exact hnd
    have hlk := alookup_eq_of_mem_nodup hkeysnd hp
    have hdm : p.1 ∈ ocd := key_mem_ocd hInvF hlk
    have hday : e2 ∈ dayList st.asg p.1 := by
      unfold dayList
      rw [hlk]
      exact hin
    have hocc2 : occD ocd st.asg e2 = 0 := (hInvF.countsVal e2 0 hWonF.2.2).1.symm
    have := occD_pos_day hdm hday
    omega

/-- Any name present in a merged block came from the final map so far or from
the team block being merged. -/
theorem mem_mergeAsg_sub : ∀ {asgT fin : List (String × List String)}
    {p : String × List String} {n : String},
    p ∈ mergeAsg fin asgT → n ∈ p.2 →
    (∃ q ∈ fin, n ∈ q.2) ∨ (∃ q ∈ asgT, n ∈ q.2) := by
  intro asgT
  induction asgT with
  | nil => intro fin p n hp hn; exact Or.inl ⟨p, hp, hn⟩
  | cons kv rest ih =>
    intro fin p n hp hn
    cases kv with
    | mk k ns =>
      rw [mergeAsg_cons] at hp
      rcases ih hp hn with hfin | hrest
      · obtain ⟨q, hq, hnq⟩ := hfin
        unfold setdefaultExtend at hq
        split at hq
        · rename_i lk hk
          rcases mem_setAt hq with ⟨_, hqfin⟩ | ⟨_, hq2, _⟩
          · exact Or.inl ⟨q, hqfin, hnq⟩
          · rw [hq2] at hnq
            rcases List.mem_append.mp hnq with hlk1 | hns
            · exact Or.inl ⟨(k, lk), alookup_mem hk, hlk1⟩
            · exact Or.inr ⟨(k, ns), List.mem_cons_self _ _, hns⟩
        · rcases List.mem_append.mp hq with hqf | hqs
          · exact Or.inl ⟨q, hqf, hnq⟩
          · have hqe : q = (k, ns) := List.mem_singleton.mp hqs
            rw [hqe] at hnq
            exact Or.inr ⟨(k, ns), List.mem_cons_self _ _, hnq⟩
      · obtain ⟨q, hq, hnq⟩ := hrest
        exact Or.inr ⟨q, List.mem_cons_of_mem _ hq, hnq⟩

/-- Some team of the merged fold has a completed `processTeam` value. -/
theorem mergeTeams_some {month_str : String} {ocd : List String}
    {m : List (String × EngineerData)} :
    ∀ {ts : List TeamData} {fin final : List (String × List String)} {t : TeamData},
    t ∈ ts → mergeTeams month_str ocd m ts fin = .ok final →
    ∃ r, processTeam month_str ocd m t = .ok r := by
  intro ts
  induction ts with
  | nil => intro fin final t ht _; simp at ht
  | cons t0 ts' ih =>
    intro fin final t ht h
    simp only [mergeTeams] at h
    split at h
    · exact absurd h (by simp)
    · rename_i hproc
      rcases List.mem_cons.mp ht with he | hts'
      · exact ⟨none, by rw [he]; exact hproc⟩
      · exact ih hts' h
    · rename_i r0 hproc
      rcases List.mem_cons.mp ht with he | hts'
      · exact ⟨some r0, by rw [he]; exact hproc⟩
      · exact ih hts' h

/-- Tracking the contention outcome through the cross-team merge fold. -/
theorem mergeTeams_c9 {month_str : String} {ocd : List String}
    {m : List (String × EngineerData)} (hnd : ocd.Nodup) (hknd : KeysNodup m)
    (hwf : MapNamesOk m) {t : TeamData}
    {asgT : List (String × List String)} {d e1 e2 : String} {E2 : EngineerData}
    (hE2 : alookup m e2 = some E2) (hteam2 : E2.team = t.name)
    (hpt : processTeam month_str ocd m t = .ok (some asgT))
    (hkeysT : asgT.map Prod.fst = ocd)
    (hd : alookup asgT d = some [e1])
    (hfree : ∀ p ∈ asgT, e2 ∉ p.2) :
    ∀ (ts : List TeamData) (fin : List (String × List String))
      {final : List (String × List String)},
      (∀ q ∈ ts, q.name = t.name → q = t) →
      fin.map Prod.fst = ocd →
      (∀ p ∈ fin, e2 ∉ p.2) →
      mergeTeams month_str ocd m ts fin = .ok final →
      ((t ∈ ts ∨ ∃ l, alookup fin d = some l ∧ e1 ∈ l) →
        ∃ l, alookup final d = some l ∧ e1 ∈ l)
      ∧ (∀ p ∈ final, e2 ∉ p.2) := by
  intro ts
  induction ts with
  | nil =>
    intro fin final hinj hkfin hfree2 h
    simp only [mergeTeams, Except.ok.injEq] at h
    subst h
    refine ⟨?_, hfree2⟩
    intro hdisj
    rcases hdisj with hmem | hgot
    · simp at hmem
    · exact hgot
  | cons t0 ts' ih =>
    intro fin final hinj hkfin hfree2 h
    simp only [mergeTeams] at h
    split at h
    · exact absurd h (by simp)
    · rename_i hproc
      have hres := ih fin (fun q hq => hinj q (List.mem_cons_of_mem t0 hq))
        hkfin hfree2 h
      refine ⟨?_, hres.2⟩
      intro hdisj
      apply hres.1
      rcases hdisj with hmem | hgot
      · rcases List.mem_cons.mp hmem with he | hts'
        · exfalso
          rw [← he, hpt] at hproc
          exact Option.noConfusion (Except.ok.inj hproc)
        · exact Or.inl hts'
      · exact Or.inr hgot
    · rename_i r0 hproc
      obtain ⟨hk0, _, _, hmem0, _, _⟩ := processTeam_spec hnd hknd hwf hproc
      have hsub : ∀ k ∈ r0.map Prod.fst, (alookup fin k).isSome = true := by
        intro k hk
        rw [hk0] at hk
        apply alookup_isSome_of_fst_mem
        rw [hkfin]
        exact hk
      have hkfin2 : (mergeAsg fin r0).map Prod.fst = ocd := by
        rw [mergeAsg_map_fst hsub]
        exact hkfin
      have hfree0 : ∀ p ∈ r0, e2 ∉ p.2 := by
        by_cases hsame : t0.name = t.name
        · have ht0t : t0 = t := hinj t0 (List.mem_cons_self t0 ts') hsame
          have hr0 : r0 = asgT := by
            rw [ht0t, hpt] at hproc
            exact (Option.some_inj.mp (Except.ok.inj hproc)).symm
          rw [hr0]
          exact hfree
        · intro p hp hin
          obtain ⟨e, he, hteam⟩ := hmem0 p hp e2 hin
          have heE2 : e = E2 := Option.some_inj.mp (he.symm.trans hE2)
          rw [heE2] at hteam
          exact hsame (hteam.symm.trans hteam2)
      have hfree2n : ∀ p ∈ mergeAsg fin r0, e2 ∉ p.2 := by
        intro p hp hin
        rcases mem_mergeAsg_sub hp hin with ⟨q, hq, hnq⟩ | ⟨q, hq, hnq⟩
        · exact hfree2 q hq hnq
        · exact hfree0 q hq hnq
      have hres := ih (mergeAsg fin r0)
        (fun q hq => hinj q (List.mem_cons_of_mem t0 hq)) hkfin2 hfree2n h
      refine ⟨?_, hres.2⟩
      intro hdisj
      apply hres.1
      rcases hdisj with hmem | hgot
      · rcases List.mem_cons.mp hmem with he | hts'
        · right
          have hr0 : r0 = asgT := by
            rw [← he, hpt] at hproc
            exact (Option.some_inj.mp (Except.ok.inj hproc)).symm
          have hdocd : d ∈ ocd := by
            rw [← hkeysT]
            exact List.mem_map_of_mem Prod.fst (alookup_mem hd)
          have hdfin : (alookup fin d).isSome = true := by
            apply alookup_isSome_of_fst_mem
            rw [hkfin]
            exact hdocd
          cases hfl : alookup fin d with
          | none =>
            rw [hfl] at hdfin
            exact Bool.noConfusion hdfin
          | some l0 =>
            have hndk0 : KeysNodup r0 := by
              unfold KeysNodup
              rw [hk0]
              exact hnd
            have hmerged := mergeAsg_lookup_some hndk0 hsub
              (by rw [hr0]; exact hd) hfl
            exact ⟨l0 ++ [e1], hmerged,
              List.mem_append.mpr (Or.inr (List.mem_cons_self e1 []))⟩
        · exact Or.inl hts'
      · obtain ⟨l, hl, he1l⟩ := hgot
        right
        cases hrd : alookup r0 d with
        | none =>
          rw [mergeAsg_lookup_none hsub hrd]
          exact ⟨l, hl, he1l⟩
        | some b =>
          have hndk0 : KeysNodup r0 := by
            unfold KeysNodup
            rw [hk0]
            exact hnd
          rw [mergeAsg_lookup_some hndk0 hsub hrd hl]
          exact ⟨l ++ b, rfl, List.mem_append.mpr (Or.inl he1l)⟩

/-- Claim C9 (amended): in a completed run where two engineers of a team both
have `maxShifts` 1 and the same single preferred day of effective capacity 1,
and no further engineer of that team prefers that day, the contender ranked
earlier in the flattened monthly priority ordering is on the day's final list
and the other contender appears nowhere in the final assignment map.  (The
claim's bare version is refuted by `higher_priority_pair_cex`: a third
engineer outside the contending pair can take the slot first, so the
no-other-claimant condition is required.) -/
theorem two_engineer_contention (month_str : String) (teams_data : List TeamData)
    (engineers_data : List EngineerData) (holidays_data : List HolidayInput)
    (temp : Option TempPrefs) (final : List (String × List String))
    (t : TeamData) (d e1 e2 : String) (E1 E2 : EngineerData)
    (hnodup : (teams_data.map TeamData.name).Nodup)
    (ht : t ∈ teams_data)
    (hok : run_schedule_simulation month_str teams_data engineers_data
      holidays_data temp = .ok final)
    (hE1 : alookup (simEngMap month_str engineers_data temp) e1 = some E1)
    (hE2 : alookup (simEngMap month_str engineers_data temp) e2 = some E2)
    (hne : e1 ≠ e2)
    (ht1 : E1.team = t.name) (ht2 : E2.team = t.name)
    (hm1 : E1.maxShifts = 1) (hm2 : E2.maxShifts = 1)
    (hp1 : alookupD E1.preferences month_str [] = [d])
    (hp2 : alookupD E2.preferences month_str [] = [d])
    (hcap : effCap t d = 1)
    (hFnd : ((priorityNamesFor month_str
      (simEngMap month_str engineers_data temp) t).flatten).Nodup)
    (h1F : e1 ∈ (priorityNamesFor month_str
      (simEngMap month_str engineers_data temp) t).flatten)
    (h2F : e2 ∈ (priorityNamesFor month_str
      (simEngMap month_str engineers_data temp) t).flatten)
    (hidx : ((priorityNamesFor month_str
        (simEngMap month_str engineers_data temp) t).flatten).indexOf e1
      < ((priorityNamesFor month_str
        (simEngMap month_str engineers_data temp) t).flatten).indexOf e2)
    (hothers : ∀ p ∈ simEngMap month_str engineers_data temp,
      p.2.team = t.name → p.1 ≠ e1 → p.1 ≠ e2 →
      d ∉ alookupD p.2.preferences month_str []) :
    (∃ l, alookup final d = some l ∧ e1 ∈ l) ∧ ∀ p ∈ final, e2 ∉ p.2 := by
  unfold run_schedule_simulation at hok
  split at hok
  · exact absurd hok (by simp)
  · rename_i year month hparse
    split at hok
    · exact absurd hok (by simp)
    · rename_i ocd hocd
      have hnd : ocd.Nodup := get_on_call_days_nodup hocd
      obtain ⟨hknd, hwf⟩ := simEngMap_wf month_str engineers_data temp
      have hok2 : mergeTeams month_str ocd (simEngMap month_str engineers_data temp)
          teams_data (ocd.map (fun d => (d, ([] : List String)))) = .ok final := hok
      obtain ⟨r, hr⟩ := mergeTeams_some ht hok2
      have hcap2 : alookupD t.shift_overrides d t.shifts_per_day = 1 := hcap
      obtain ⟨asgT, hrs, hkeysT, hdA, hfreeA⟩ :=
        processTeam_c9 hnd hknd hwf hE1 hE2 hne ht1 ht2 hm1 hm2 hp1 hp2 hcap2
          hFnd h1F h2F hidx hothers hr
      rw [hrs] at hr
      have hinj : ∀ q ∈ teams_data, q.name = t.name → q = t :=
        fun q hq he => List.inj_on_of_nodup_map hnodup hq ht he
      have hfree0 : ∀ p ∈ ocd.map (fun d => (d, ([] : List String))), e2 ∉ p.2 := by
        intro p hp hin
        obtain ⟨d0, _, hd0⟩ := List.mem_map.mp hp
        rw [← hd0] at hin
        simp at hin
      have hres := mergeTeams_c9 hnd hknd hwf hE2 ht2 hr hkeysT hdA hfreeA
        teams_data (ocd.map (fun d => (d, ([] : List String)))) hinj
        (map_fst_pair_nil ocd) hfree0 hok2
      exact ⟨hres.1 (Or.inl ht), hres.2⟩

/-- Witness for the amended claim C9 at a concrete input: `EngB` is ranked
first, wins `2025-10-04`, and `EngA` appears nowhere. -/
theorem two_engineer_contention_witness :
    (([wteamC9].map TeamData.name).Nodup)
  ∧ wteamC9 ∈ [wteamC9]
  ∧ run_schedule_simulation "2025-10" [wteamC9] [wengA, wengBC9] [] none
      = .ok wfinalC9
  ∧ alookup (simEngMap "2025-10" [wengA, wengBC9] none) "EngB" = some wengBC9
  ∧ alookup (simEngMap "2025-10" [wengA, wengBC9] none) "EngA" = some wengA
  ∧ "EngB" ≠ "EngA"
  ∧ wengBC9.team = wteamC9.name
  ∧ wengA.team = wteamC9.name
  ∧ wengBC9.maxShifts = 1
  ∧ wengA.maxShifts = 1
  ∧ alookupD wengBC9.preferences "2025-10" [] = ["2025-10-04"]
  ∧ alookupD wengA.preferences "2025-10" [] = ["2025-10-04"]
  ∧ effCap wteamC9 "2025-10-04" = 1
  ∧ ((priorityNamesFor "2025-10" (simEngMap "2025-10" [wengA, wengBC9] none)
      wteamC9).flatten).Nodup
  ∧ "EngB" ∈ (priorityNamesFor "2025-10" (simEngMap "2025-10" [wengA, wengBC9] none)
      wteamC9).flatten
  ∧ "EngA" ∈ (priorityNamesFor "2025-10" (simEngMap "2025-10" [wengA, wengBC9] none)
      wteamC9).flatten
  ∧ ((priorityNamesFor "2025-10" (simEngMap "2025-10" [wengA, wengBC9] none)
        wteamC9).flatten).indexOf "EngB"
      < ((priorityNamesFor "2025-10" (simEngMap "2025-10" [wengA, wengBC9] none)
        wteamC9).flatten).indexOf "EngA"
  ∧ (∀ p ∈ simEngMap "2025-10" [wengA, wengBC9] none, p.2.team = wteamC9.name →
      p.1 ≠ "EngB" → p.1 ≠ "EngA" →
      "2025-10-04" ∉ alookupD p.2.preferences "2025-10" [])
  ∧ ((∃ l, alookup wfinalC9 "2025-10-04" = some l ∧ "EngB" ∈ l)
      ∧ ∀ p ∈ wfinalC9, "EngA" ∉ p.2) :=
  ⟨by decide, by decide, rfl, rfl, rfl, by decide, rfl, rfl, rfl, rfl, rfl, rfl,
    rfl, by decide, by decide, by decide, by decide, by decide,
    two_engineer_contention "2025-10" [wteamC9] [wengA, wengBC9] [] none wfinalC9
      wteamC9 "2025-10-04" "EngB" "EngA" wengBC9 wengA
      (by decide) (by decide) rfl rfl rfl (by decide) rfl rfl rfl rfl rfl rfl
      rfl (by decide) (by decide) (by decide) (by decide) (by decide)⟩

end OnCall
